import Mathlib

/-!
Verification of the Tic-Tac-Toe opponent decision procedure
(`src/app/components/TicTacToe.tsx`).

The board is the source's 9-element array of `'X' | 'O' | null`, embedded as a
`List (Option Mark)`.  JavaScript numeric scores (which include `-Infinity` and
`Infinity`) are embedded as `Score := WithBot (WithTop ℤ)`: `⊥` stands for
`-Infinity`, `⊤` for `Infinity`, and finite scores are integers (every finite
score produced by the code is an integer).

The recursive search functions are embedded with an explicit `fuel` argument
that bounds the recursion depth; one ply of recursion consumes one unit of
fuel, so any `fuel ≥` the number of empty cells reproduces the source's
recursion exactly (the zero-fuel fallback is unreachable then, and all lemmas
carry that hypothesis).
-/

namespace TTT

/-- A mark on the board: `'X'` (the human player) or `'O'` (the bot). -/
inductive Mark : Type
  | X : Mark
  | O : Mark
deriving DecidableEq, Repr

/-- A cell of the board: `null` is `Option.none`. Source: `type Player = 'X' | 'O' | null`. -/
abbrev Cell := Option Mark

/-- Source: `type Board = Player[]` — a 9-element array, row-major. -/
abbrev Board := List Cell

/-- Source: `const BOARD_SIZE = 9`. -/
def BOARD_SIZE : Nat := 9

/-- Source: `const WIN_CONDITIONS = [[0,1,2],[3,4,5],[6,7,8],[0,3,6],[1,4,7],[2,5,8],[0,4,8],[2,4,6]]`. -/
def WIN_CONDITIONS : List (Nat × Nat × Nat) :=
  [(0, 1, 2), (3, 4, 5), (6, 7, 8),
   (0, 3, 6), (1, 4, 7), (2, 5, 8),
   (0, 4, 8), (2, 4, 6)]

/-- Cell lookup `currentBoard[i]`; out-of-range reads give `null` (in JS they give
`undefined`, which compares unequal to `'X'`/`'O'` exactly as `none` does here,
and no in-range index is out of range on the 9-cell boards the app builds). -/
def cellAt (b : Board) (i : Nat) : Cell := b.getD i none

/-- Source `checkWin`: return the first win condition whose three cells all hold
`player`, else `null`. -/
def checkWin (player : Cell) (currentBoard : Board) : Option (Nat × Nat × Nat) :=
  WIN_CONDITIONS.find? fun c =>
    cellAt currentBoard c.1 = player ∧
    cellAt currentBoard c.2.1 = player ∧
    cellAt currentBoard c.2.2 = player

/-- Source `hasWon`: `checkWin(player, currentBoard) !== null`. -/
def hasWon (player : Cell) (currentBoard : Board) : Bool :=
  (checkWin player currentBoard).isSome

/-- Source `checkDraw`: `currentBoard.every(cell => cell !== null)`. -/
def checkDraw (currentBoard : Board) : Bool :=
  currentBoard.all fun cell => cell ≠ none

/-- Source `getAvailableMoves`: the indices `0 ≤ i < 9` with `currentBoard[i] === null`,
in ascending order. -/
def availableMoves (currentBoard : Board) : List Nat :=
  (List.range BOARD_SIZE).filter fun i => cellAt currentBoard i = none

/-- Number of empty cells (among indices 0..8). -/
def countEmpty (b : Board) : Nat := (availableMoves b).length

/-- JavaScript numbers as used by the search: integers together with
`-Infinity` (`⊥`) and `Infinity` (`⊤`). -/
abbrev Score := WithBot (WithTop ℤ)

/-- A finite score. -/
def sc (z : ℤ) : Score := ((z : WithTop ℤ) : Score)

/-- The maximizing loop of `minimax` (the `for (const move of availableMoves)`
loop in the `isMaximizing` branch): `f m a` evaluates move `m` with current
alpha `a`; the loop threads `maxEval` and `alpha` and breaks once `beta ≤ alpha`. -/
def maxLoop (f : Nat → Score → Score) (beta : Score) :
    List Nat → Score → Score → Score
  | [], maxEval, _ => maxEval
  | m :: rest, maxEval, alpha =>
    let ev := f m alpha
    let maxEval' := max maxEval ev
    let alpha' := max alpha ev
    if beta ≤ alpha' then maxEval' else maxLoop f beta rest maxEval' alpha'

/-- The minimizing loop of `minimax` (the `else` branch): `f m bt` evaluates
move `m` with current beta `bt`; the loop threads `minEval` and `beta` and
breaks once `beta ≤ alpha`. -/
def minLoop (f : Nat → Score → Score) (alpha : Score) :
    List Nat → Score → Score → Score
  | [], minEval, _ => minEval
  | m :: rest, minEval, beta =>
    let ev := f m beta
    let minEval' := min minEval ev
    let beta' := min beta ev
    if beta' ≤ alpha then minEval' else minLoop f alpha rest minEval' beta'

/-- Source `minimax` with alpha-beta pruning.  `fuel` bounds the recursion
depth (one ply per unit); with `fuel ≥ countEmpty b` the `fuel = 0` fallback is
unreachable and the function is the source's recursion verbatim. -/
def minimax : Nat → Board → Nat → Bool → Score → Score → Score
  | fuel, currentBoard, depth, isMaximizing, alpha, beta =>
    if hasWon (some Mark.O) currentBoard then sc (10 - (depth : ℤ))
    else if hasWon (some Mark.X) currentBoard then sc ((depth : ℤ) - 10)
    else if checkDraw currentBoard then sc 0
    else
      match fuel with
      | 0 => sc 0
      | fuel' + 1 =>
        if isMaximizing then
          maxLoop
            (fun m a => minimax fuel' (currentBoard.set m (some Mark.O)) (depth + 1) false a beta)
            beta (availableMoves currentBoard) ⊥ alpha
        else
          minLoop
            (fun m bt => minimax fuel' (currentBoard.set m (some Mark.X)) (depth + 1) true alpha bt)
            alpha (availableMoves currentBoard) ⊤ beta

/-- The maximizing loop with the pruning `break` removed (alpha is still
threaded, exactly as in the source with only the `if (beta <= alpha) break`
deleted). -/
def npMaxLoop (f : Nat → Score → Score) : List Nat → Score → Score → Score
  | [], maxEval, _ => maxEval
  | m :: rest, maxEval, alpha =>
    let ev := f m alpha
    npMaxLoop f rest (max maxEval ev) (max alpha ev)

/-- The minimizing loop with the pruning `break` removed. -/
def npMinLoop (f : Nat → Score → Score) : List Nat → Score → Score → Score
  | [], minEval, _ => minEval
  | m :: rest, minEval, beta =>
    let ev := f m beta
    npMinLoop f rest (min minEval ev) (min beta ev)

/-- Unpruned minimax: the same recursion as `minimax` with the pruning `break`
removed and nothing else changed. -/
def minimaxNP : Nat → Board → Nat → Bool → Score → Score → Score
  | fuel, currentBoard, depth, isMaximizing, alpha, beta =>
    if hasWon (some Mark.O) currentBoard then sc (10 - (depth : ℤ))
    else if hasWon (some Mark.X) currentBoard then sc ((depth : ℤ) - 10)
    else if checkDraw currentBoard then sc 0
    else
      match fuel with
      | 0 => sc 0
      | fuel' + 1 =>
        if isMaximizing then
          npMaxLoop
            (fun m a => minimaxNP fuel' (currentBoard.set m (some Mark.O)) (depth + 1) false a beta)
            (availableMoves currentBoard) ⊥ alpha
        else
          npMinLoop
            (fun m bt => minimaxNP fuel' (currentBoard.set m (some Mark.X)) (depth + 1) true alpha bt)
            (availableMoves currentBoard) ⊤ beta

/-- Source: `const corners = [0, 2, 6, 8]` (inside `botPlayer`). -/
def corners : List Nat := [0, 2, 6, 8]

/-- The best-move loop of `botPlayer`: tracks `bestMove` and `bestScore`,
updating on strict improvement (`score > bestScore`). -/
def bestLoop (score : Nat → Score) : List Nat → Nat → Score → Nat
  | [], bestMove, _ => bestMove
  | m :: rest, bestMove, bestScore =>
    let s := score m
    if bestScore < s then bestLoop score rest m s
    else bestLoop score rest bestMove bestScore

/-- Source `botPlayer`.  The call `Math.floor(Math.random() * corners.length)`
draws a value in `{0,1,2,3}`; it is embedded as the explicit parameter
`r : Fin 4`, universally quantified in every theorem about `botPlayer`. -/
def botPlayer (r : Fin 4) (currentBoard : Board) : Int :=
  let avail := availableMoves currentBoard
  if avail.length = 0 then -1
  else if avail.length = 9 then Int.ofNat (corners.getD (r : Nat) 0)
  else if avail.length = 1 then Int.ofNat (avail.headD 0)
  else
    Int.ofNat
      (bestLoop (fun m => minimax 9 (currentBoard.set m (some Mark.O)) 0 false ⊥ ⊤)
        avail (avail.headD 0) ⊥)

/-! ## The application state machine

The React component keeps a board, a turn flag and a game status, and the only
transitions are the guarded player click, the bot effect, and the reset. -/

/-- Source: `type GameStatus = 'playing' | 'won' | 'draw'` (together with the
`winner` state, a win is attributed to a mark). -/
inductive GameStatus : Type
  | playing : GameStatus
  | won : Mark → GameStatus
  | draw : GameStatus
deriving DecidableEq, Repr

/-- The component state relevant to the board lifecycle: `board`,
`isPlayerTurn`, `gameStatus` (with the winner folded into `won`). -/
structure AppState : Type where
  board : Board
  isPlayerTurn : Bool
  status : GameStatus
deriving DecidableEq, Repr

/-- The board of all `null`s: `Array(BOARD_SIZE).fill(null)`. -/
def emptyBoard : Board := List.replicate 9 none

/-- The initial component state. -/
def initState : AppState :=
  { board := emptyBoard, isPlayerTurn := true, status := GameStatus.playing }

/-- Status bookkeeping after a mark `mk` was placed producing board `b`
(the common tail of `handleCellClick` and of the bot effect): win check for
`mk`, then draw check, else pass the turn to `next`. -/
def afterMove (mk : Mark) (b : Board) (next : Bool) : AppState :=
  if hasWon (some mk) b then
    { board := b, isPlayerTurn := next, status := GameStatus.won mk }
  else if checkDraw b then
    { board := b, isPlayerTurn := next, status := GameStatus.draw }
  else
    { board := b, isPlayerTurn := next, status := GameStatus.playing }

/-- One transition of the component: a guarded player click
(`handleCellClick`), the bot effect (the `useEffect` applying `botPlayer` when
it is not the player's turn), or `resetGame`. -/
inductive Step : AppState → AppState → Prop
  | click (s : AppState) (i : Nat) :
      s.status = GameStatus.playing → s.isPlayerTurn = true →
      i < 9 → cellAt s.board i = none →
      Step s (afterMove Mark.X (s.board.set i (some Mark.X)) false)
  | bot (s : AppState) (r : Fin 4) :
      s.status = GameStatus.playing → s.isPlayerTurn = false →
      botPlayer r s.board ≠ -1 →
      Step s (afterMove Mark.O (s.board.set (botPlayer r s.board).toNat (some Mark.O)) true)
  | reset (s : AppState) : Step s initState

/-- The states the component can reach from the initial state. -/
inductive Reachable : AppState → Prop
  | init : Reachable initState
  | step {s s' : AppState} : Reachable s → Step s s' → Reachable s'

/-! ## Spec-side predicates used to state the claims -/

/-- Predicate for "the player can beat the bot": with `X` to move on `b`, some sequence of
player moves wins against the bot's replies (`botPlayer`, fed the random
draws `rands k, rands (k+1), …` for its opening branch).  `fuel` bounds the
number of player moves considered; the theorems quantify over all `fuel`. -/
def xBeatsBot (rands : Nat → Fin 4) : Nat → Nat → Board → Bool
  | _, 0, _ => false
  | k, fuel + 1, b =>
    (availableMoves b).any fun m =>
      let b' := b.set m (some Mark.X)
      if hasWon (some Mark.X) b' then true
      else if checkDraw b' then false
      else
        let bm := botPlayer (rands k) b'
        if bm = -1 then false
        else
          let b'' := b'.set bm.toNat (some Mark.O)
          if hasWon (some Mark.O) b'' then false
          else if checkDraw b'' then false
          else xBeatsBot rands (k + 1) fuel b''

/-- The empty cells of `b` in an exploration order that prefers the center and
the corners.  Same members as `availableMoves b`; only the order differs (the
order is irrelevant to the predicates below and speeds up their evaluation). -/
def orderedMoves (b : Board) : List Nat :=
  [4, 0, 2, 6, 8, 1, 3, 5, 7].filter fun i => cellAt b i = none

/-- The win conditions passing through cell `i`. -/
def linesThrough (i : Nat) : List (Nat × Nat × Nat) :=
  WIN_CONDITIONS.filter fun c => c.1 == i || c.2.1 == i || c.2.2 == i

/-- Whether `p` has a completed line through cell `i` on `b`.  When a mark was
just placed at `i` on a board where `p` had no completed line, this coincides
with `hasWon p` on the new board (only lines through `i` can have completed). -/
def wonAt (p : Cell) (b : Board) (i : Nat) : Bool :=
  (linesThrough i).any fun c =>
    cellAt b c.1 = p ∧ cellAt b c.2.1 = p ∧ cellAt b c.2.2 = p

/-- Game-theoretic survival of the bot's side: with `isMax = true` it is `O`'s
turn and `O` has a move after which it never loses; with `isMax = false` it is
`X`'s turn and every `X` move fails to win for `X`.  The predicate is sound on
boards with no completed line when `fuel = countEmpty b` exactly: a move that
exhausts the fuel fills the board, hence draws. -/
def survives : Nat → Bool → Board → Bool
  | 0, _, _ => true
  | fuel + 1, isMax, b =>
    if isMax then
      (orderedMoves b).any fun o =>
        let b' := b.set o (some Mark.O)
        if wonAt (some Mark.O) b' o then true
        else
          match fuel with
          | 0 => true
          | _ + 1 => survives fuel false b'
    else
      (orderedMoves b).all fun m =>
        let b' := b.set m (some Mark.X)
        if wonAt (some Mark.X) b' m then false
        else
          match fuel with
          | 0 => true
          | _ + 1 => survives fuel true b'

/-! ## The heuristic move selector (spec §4.1)

Modelled from the spec: the heuristic selector is not part of the code under
`src/` (the snapshot there contains only the minimax selector), so the
following definitions are written from the spec's §4.1 wording. -/

/-- Modelled from the spec: the cell completing a line for `p` — if exactly two
cells of the triple hold `p`'s mark and the third is empty, that empty index. -/
def lineGap (p : Cell) (b : Board) (c : Nat × Nat × Nat) : Option Nat :=
  if cellAt b c.1 = p ∧ cellAt b c.2.1 = p ∧ cellAt b c.2.2 = none then some c.2.2
  else if cellAt b c.1 = p ∧ cellAt b c.2.2 = p ∧ cellAt b c.2.1 = none then some c.2.1
  else if cellAt b c.2.1 = p ∧ cellAt b c.2.2 = p ∧ cellAt b c.1 = none then some c.1
  else none

/-- Modelled from the spec: the completing cell of the first line (in the fixed
table order) on which `p` has exactly two marks and the third cell is empty. -/
def firstGap (p : Cell) (b : Board) : Option Nat :=
  WIN_CONDITIONS.findSome? (lineGap p b)

/-- Modelled from the spec: the heuristic move selector of §4.1 — win now,
else take the center, else block, else the first empty cell; `-1` when no
empty cell exists. -/
def heuristicMove (b : Board) : Int :=
  match firstGap (some Mark.O) b with
  | some i => Int.ofNat i
  | none =>
    if cellAt b 4 = none then 4
    else
      match firstGap (some Mark.X) b with
      | some i => Int.ofNat i
      | none =>
        match availableMoves b with
        | [] => -1
        | m :: _ => Int.ofNat m

/-- The status-derivation function described in spec §8, built from the
source's `checkWin` and `checkDraw` exactly as the component derives the
status after each move. -/
def deriveStatus (b : Board) : GameStatus :=
  if hasWon (some Mark.X) b then GameStatus.won Mark.X
  else if hasWon (some Mark.O) b then GameStatus.won Mark.O
  else if checkDraw b then GameStatus.draw
  else GameStatus.playing

/-- Plain maximum fold: what the unpruned maximizing loop computes. -/
def foldMax (g : Nat → Score) (l : List Nat) (e : Score) : Score :=
  l.foldl (fun acc m => max acc (g m)) e

/-- Plain minimum fold: what the unpruned minimizing loop computes. -/
def foldMin (g : Nat → Score) (l : List Nat) (e : Score) : Score :=
  l.foldl (fun acc m => min acc (g m)) e

/-- The value of a position: unpruned minimax at the full window.  Sound for
`fuel ≥ countEmpty b` (see `V_adequate`). -/
def V (fuel : Nat) (b : Board) (d : Nat) (t : Bool) : Score :=
  minimaxNP fuel b d t ⊥ ⊤

/-- The fail-soft alpha-beta relation between a returned score `g` and the true
value `w` at window `(al, bt)`: failing low gives an upper bound, failing high
a lower bound, and a score inside the window is exact. -/
def KMrel (al bt g w : Score) : Prop :=
  (g ≤ al → w ≤ g) ∧ (al < g → g < bt → w = g) ∧ (bt ≤ g → g ≤ w)

/-- The invariant maintained by the component: a 9-cell board and, while the
game is in progress, no completed line and a position whose value is at least
a draw for the bot, with the parity of the empty cells tracking the turn. -/
def Inv (s : AppState) : Prop :=
  s.board.length = 9 ∧
  (s.status = GameStatus.playing →
    hasWon (some Mark.O) s.board = false ∧ hasWon (some Mark.X) s.board = false ∧
    (s.isPlayerTurn = true → countEmpty s.board % 2 = 1 ∧ sc 0 ≤ V 9 s.board 0 false) ∧
    (s.isPlayerTurn = false → countEmpty s.board % 2 = 0 ∧ sc 0 ≤ V 9 s.board 0 true))

/-! ## Basic board lemmas -/

theorem cellAt_set {b : Board} {m : Nat} (hm : m < b.length) (v : Cell) (j : Nat) :
    cellAt (b.set m v) j = if m = j then v else cellAt b j := by
  by_cases h : m = j
  · subst h
    simp [cellAt, List.getD_eq_getElem?_getD, List.getElem?_set_eq_of_lt v hm]
  · simp [cellAt, List.getD_eq_getElem?_getD, List.getElem?_set_ne h, h]

theorem mem_availableMoves {b : Board} {m : Nat} :
    m ∈ availableMoves b ↔ m < 9 ∧ cellAt b m = none := by
  simp [availableMoves, BOARD_SIZE, List.mem_filter, List.mem_range]

theorem countEmpty_le_nine (b : Board) : countEmpty b ≤ 9 := by
  calc (availableMoves b).length ≤ (List.range BOARD_SIZE).length :=
        List.length_filter_le _ _
    _ = 9 := by simp [BOARD_SIZE]

theorem length_filter_of_flip {p q : Nat → Bool} :
    ∀ (l : List Nat) (m : Nat), l.Nodup → m ∈ l → p m = true → q m = false →
      (∀ x ∈ l, x ≠ m → q x = p x) →
      (l.filter q).length + 1 = (l.filter p).length := by
  intro l
  induction l with
  | nil => intro m _ hm; cases hm
  | cons a l ih =>
    intro m hnd hm hp hq hagree
    rcases List.mem_cons.mp hm with rfl | hm'
    · have hnotmem : m ∉ l := (List.nodup_cons.mp hnd).1
      have : l.filter q = l.filter p := by
        apply List.filter_congr
        intro x hx
        exact hagree x (List.mem_cons_of_mem _ hx) (fun h => hnotmem (h ▸ hx))
      simp [List.filter_cons, hp, hq, this]
    · have hne : a ≠ m := by
        rintro rfl
        exact (List.nodup_cons.mp hnd).1 hm'
      have hqa : q a = p a := hagree a (List.mem_cons_self _ _) hne
      have ihh := ih m (List.nodup_cons.mp hnd).2 hm' hp hq
        (fun x hx hxm => hagree x (List.mem_cons_of_mem _ hx) hxm)
      cases hpa : p a <;> simp [List.filter_cons, hqa, hpa, ihh]

theorem countEmpty_set {b : Board} {m : Nat} (hW : b.length = 9)
    (hm : m ∈ availableMoves b) (mk : Mark) :
    countEmpty (b.set m (some mk)) + 1 = countEmpty b := by
  obtain ⟨hm9, hempty⟩ := mem_availableMoves.mp hm
  have hmlen : m < b.length := by omega
  apply length_filter_of_flip (List.range BOARD_SIZE) m (List.nodup_range _)
    (by simp [BOARD_SIZE]; omega)
  · simpa using hempty
  · have : cellAt (b.set m (some mk)) m = some mk := by
      simp [cellAt_set hmlen]
    simp [this]
  · intro x _ hxm
    have hmx : m ≠ x := fun h => hxm h.symm
    have : cellAt (b.set m (some mk)) x = cellAt b x := by
      rw [cellAt_set hmlen, if_neg hmx]
    simp [this]

theorem length_set_board (b : Board) (m : Nat) (v : Cell) :
    (b.set m v).length = b.length := List.length_set _ _ _

theorem checkDraw_eq_false_of_empty {b : Board} (hW : b.length = 9)
    {i : Nat} (hi : i < 9) (hempty : cellAt b i = none) :
    checkDraw b = false := by
  have hilen : i < b.length := by omega
  have hbi : b[i] = none := by
    have h1 : cellAt b i = b[i] := by
      simp [cellAt, List.getD_eq_getElem?_getD, List.getElem?_eq_getElem hilen]
    rw [← h1, hempty]
  have hmem : (none : Cell) ∈ b := List.mem_iff_getElem.mpr ⟨i, hilen, hbi⟩
  simp only [checkDraw]
  rw [List.all_eq_false]
  exact ⟨none, hmem, by simp⟩

theorem avail_ne_nil_iff_not_draw {b : Board} (hW : b.length = 9) :
    availableMoves b ≠ [] ↔ checkDraw b = false := by
  constructor
  · intro h
    match havail : availableMoves b with
    | [] => exact absurd havail h
    | m :: rest =>
      have hm : m ∈ availableMoves b := by rw [havail]; exact List.mem_cons_self _ _
      obtain ⟨hm9, hempty⟩ := mem_availableMoves.mp hm
      exact checkDraw_eq_false_of_empty hW hm9 hempty
  · intro h hnil
    have : ∃ c ∈ b, c = none := by
      simp only [checkDraw] at h
      rw [List.all_eq_false] at h
      obtain ⟨c, hc, hcn⟩ := h
      exact ⟨c, hc, by simpa using hcn⟩
    obtain ⟨c, hc, rfl⟩ := this
    obtain ⟨i, hilen, hieq⟩ := List.getElem_of_mem hc
    have hi9 : i < 9 := by omega
    have hempty : cellAt b i = none := by
      simp [cellAt, List.getD_eq_getElem?_getD, List.getElem?_eq_getElem hilen, hieq]
    have : i ∈ availableMoves b := mem_availableMoves.mpr ⟨hi9, hempty⟩
    rw [hnil] at this
    cases this

theorem countEmpty_pos_of_not_draw {b : Board} (hW : b.length = 9)
    (h : checkDraw b = false) : 0 < countEmpty b := by
  have := (avail_ne_nil_iff_not_draw hW).mpr h
  have : availableMoves b ≠ [] := this
  simp only [countEmpty]
  exact List.length_pos.mpr this

theorem checkDraw_true_of_countEmpty_zero {b : Board} (hW : b.length = 9)
    (h : countEmpty b = 0) : checkDraw b = true := by
  by_contra hfalse
  have : checkDraw b = false := by
    cases hcd : checkDraw b
    · rfl
    · exact absurd hcd hfalse
  have := countEmpty_pos_of_not_draw hW this
  omega

/-! ## Win-condition lemmas -/

theorem hasWon_iff {p : Cell} {b : Board} :
    hasWon p b = true ↔ ∃ c ∈ WIN_CONDITIONS,
      cellAt b c.1 = p ∧ cellAt b c.2.1 = p ∧ cellAt b c.2.2 = p := by
  simp [hasWon, checkWin, List.find?_isSome]

theorem wonAt_iff {p : Cell} {b : Board} {i : Nat} :
    wonAt p b i = true ↔ ∃ c ∈ WIN_CONDITIONS,
      (c.1 = i ∨ c.2.1 = i ∨ c.2.2 = i) ∧
      (cellAt b c.1 = p ∧ cellAt b c.2.1 = p ∧ cellAt b c.2.2 = p) := by
  simp only [wonAt, linesThrough, List.any_eq_true, List.mem_filter]
  constructor
  · rintro ⟨c, ⟨hc, htouch⟩, hcells⟩
    refine ⟨c, hc, ?_, by simpa using hcells⟩
    simpa [Bool.or_eq_true, beq_iff_eq, or_assoc] using htouch
  · rintro ⟨c, hc, htouch, hcells⟩
    exact ⟨c, ⟨hc, by simpa [Bool.or_eq_true, beq_iff_eq, or_assoc] using htouch⟩,
      by simpa using hcells⟩

theorem hasWon_set_other {b : Board} {m : Nat} {mk mk' : Mark}
    (hW : b.length = 9) (hm9 : m < 9) (hempty : cellAt b m = none)
    (hne : mk' ≠ mk) :
    hasWon (some mk') (b.set m (some mk)) = hasWon (some mk') b := by
  have hmlen : m < b.length := by omega
  rw [Bool.eq_iff_iff, hasWon_iff, hasWon_iff]
  constructor
  · rintro ⟨c, hc, h1, h2, h3⟩
    rw [cellAt_set hmlen] at h1 h2 h3
    refine ⟨c, hc, ?_, ?_, ?_⟩
    · by_cases h : m = c.1
      · simp [h] at h1; exact absurd h1.symm hne
      · simpa [h] using h1
    · by_cases h : m = c.2.1
      · simp [h] at h2; exact absurd h2.symm hne
      · simpa [h] using h2
    · by_cases h : m = c.2.2
      · simp [h] at h3; exact absurd h3.symm hne
      · simpa [h] using h3
  · rintro ⟨c, hc, h1, h2, h3⟩
    refine ⟨c, hc, ?_, ?_, ?_⟩ <;> rw [cellAt_set hmlen]
    · by_cases h : m = c.1
      · rw [← h] at h1; rw [hempty] at h1; cases h1
      · simpa [h] using h1
    · by_cases h : m = c.2.1
      · rw [← h] at h2; rw [hempty] at h2; cases h2
      · simpa [h] using h2
    · by_cases h : m = c.2.2
      · rw [← h] at h3; rw [hempty] at h3; cases h3
      · simpa [h] using h3

theorem hasWon_set_self_eq_wonAt {b : Board} {m : Nat} {mk : Mark}
    (hW : b.length = 9) (hm9 : m < 9) (hempty : cellAt b m = none)
    (hw : hasWon (some mk) b = false) :
    hasWon (some mk) (b.set m (some mk)) = wonAt (some mk) (b.set m (some mk)) m := by
  have hmlen : m < b.length := by omega
  rw [Bool.eq_iff_iff, hasWon_iff, wonAt_iff]
  constructor
  · rintro ⟨c, hc, hcells⟩
    refine ⟨c, hc, ?_, hcells⟩
    by_contra hnot
    push_neg at hnot
    obtain ⟨hn1, hn2, hn3⟩ := hnot
    obtain ⟨h1, h2, h3⟩ := hcells
    rw [cellAt_set hmlen] at h1 h2 h3
    have h1' : cellAt b c.1 = some mk := by
      rw [if_neg (fun h : m = c.1 => hn1 h.symm)] at h1; exact h1
    have h2' : cellAt b c.2.1 = some mk := by
      rw [if_neg (fun h : m = c.2.1 => hn2 h.symm)] at h2; exact h2
    have h3' : cellAt b c.2.2 = some mk := by
      rw [if_neg (fun h : m = c.2.2 => hn3 h.symm)] at h3; exact h3
    have : hasWon (some mk) b = true := hasWon_iff.mpr ⟨c, hc, h1', h2', h3'⟩
    rw [hw] at this
    cases this
  · rintro ⟨c, hc, _, hcells⟩
    exact ⟨c, hc, hcells⟩

/-! ## Score lemmas -/

theorem sc_le_sc {z w : ℤ} : sc z ≤ sc w ↔ z ≤ w := by
  simp [sc]

theorem sc_lt_sc {z w : ℤ} : sc z < sc w ↔ z < w := by
  simp [sc]

theorem bot_lt_sc (z : ℤ) : (⊥ : Score) < sc z := WithBot.bot_lt_coe _

theorem sc_lt_top (z : ℤ) : sc z < (⊤ : Score) := by
  have : ((⊤ : WithTop ℤ) : Score) = (⊤ : Score) := rfl
  rw [← this]
  exact WithBot.coe_lt_coe.mpr (WithTop.coe_lt_top z)

theorem sc_ne_bot (z : ℤ) : sc z ≠ (⊥ : Score) := (bot_lt_sc z).ne'

theorem sc_ne_top (z : ℤ) : sc z ≠ (⊤ : Score) := (sc_lt_top z).ne

/-! ## Fold characterizations of the unpruned loops -/


theorem npMaxLoop_eq_foldMax {f : Nat → Score → Score} {g : Nat → Score}
    (h : ∀ m a, f m a = g m) :
    ∀ (l : List Nat) (e a : Score), npMaxLoop f l e a = foldMax g l e := by
  intro l
  induction l with
  | nil => intro e a; rfl
  | cons m rest ih =>
    intro e a
    simp only [npMaxLoop, foldMax, List.foldl_cons, h m a]
    exact ih _ _

theorem npMinLoop_eq_foldMin {f : Nat → Score → Score} {g : Nat → Score}
    (h : ∀ m bt, f m bt = g m) :
    ∀ (l : List Nat) (e bt : Score), npMinLoop f l e bt = foldMin g l e := by
  intro l
  induction l with
  | nil => intro e bt; rfl
  | cons m rest ih =>
    intro e bt
    simp only [npMinLoop, foldMin, List.foldl_cons, h m bt]
    exact ih _ _

theorem foldMax_congr {g g' : Nat → Score} :
    ∀ (l : List Nat) (e : Score), (∀ m ∈ l, g m = g' m) → foldMax g l e = foldMax g' l e := by
  intro l
  induction l with
  | nil => intros; rfl
  | cons m rest ih =>
    intro e h
    simp only [foldMax, List.foldl_cons, h m (List.mem_cons_self _ _)]
    exact ih _ fun x hx => h x (List.mem_cons_of_mem _ hx)

theorem foldMin_congr {g g' : Nat → Score} :
    ∀ (l : List Nat) (e : Score), (∀ m ∈ l, g m = g' m) → foldMin g l e = foldMin g' l e := by
  intro l
  induction l with
  | nil => intros; rfl
  | cons m rest ih =>
    intro e h
    simp only [foldMin, List.foldl_cons, h m (List.mem_cons_self _ _)]
    exact ih _ fun x hx => h x (List.mem_cons_of_mem _ hx)

theorem le_foldMax_iff {g : Nat → Score} {x : Score} :
    ∀ (l : List Nat) (e : Score), x ≤ foldMax g l e ↔ x ≤ e ∨ ∃ m ∈ l, x ≤ g m := by
  intro l
  induction l with
  | nil => intro e; simp [foldMax]
  | cons m rest ih =>
    intro e
    have : foldMax g (m :: rest) e = foldMax g rest (max e (g m)) := rfl
    rw [this, ih, le_max_iff]
    constructor
    · rintro ((h | h) | ⟨m', hm', h⟩)
      · exact Or.inl h
      · exact Or.inr ⟨m, List.mem_cons_self _ _, h⟩
      · exact Or.inr ⟨m', List.mem_cons_of_mem _ hm', h⟩
    · rintro (h | ⟨m', hm', h⟩)
      · exact Or.inl (Or.inl h)
      · rcases List.mem_cons.mp hm' with rfl | hm''
        · exact Or.inl (Or.inr h)
        · exact Or.inr ⟨m', hm'', h⟩

theorem foldMax_le_iff {g : Nat → Score} {x : Score} :
    ∀ (l : List Nat) (e : Score), foldMax g l e ≤ x ↔ e ≤ x ∧ ∀ m ∈ l, g m ≤ x := by
  intro l
  induction l with
  | nil => intro e; simp [foldMax]
  | cons m rest ih =>
    intro e
    have : foldMax g (m :: rest) e = foldMax g rest (max e (g m)) := rfl
    rw [this, ih, max_le_iff]
    constructor
    · rintro ⟨⟨he, hm⟩, hrest⟩
      refine ⟨he, ?_⟩
      intro m' hm'
      rcases List.mem_cons.mp hm' with rfl | hm''
      · exact hm
      · exact hrest m' hm''
    · rintro ⟨he, hall⟩
      exact ⟨⟨he, hall m (List.mem_cons_self _ _)⟩,
        fun m' hm' => hall m' (List.mem_cons_of_mem _ hm')⟩

theorem foldMin_le_iff {g : Nat → Score} {x : Score} :
    ∀ (l : List Nat) (e : Score), foldMin g l e ≤ x ↔ e ≤ x ∨ ∃ m ∈ l, g m ≤ x := by
  intro l
  induction l with
  | nil => intro e; simp [foldMin]
  | cons m rest ih =>
    intro e
    have : foldMin g (m :: rest) e = foldMin g rest (min e (g m)) := rfl
    rw [this, ih, min_le_iff]
    constructor
    · rintro ((h | h) | ⟨m', hm', h⟩)
      · exact Or.inl h
      · exact Or.inr ⟨m, List.mem_cons_self _ _, h⟩
      · exact Or.inr ⟨m', List.mem_cons_of_mem _ hm', h⟩
    · rintro (h | ⟨m', hm', h⟩)
      · exact Or.inl (Or.inl h)
      · rcases List.mem_cons.mp hm' with rfl | hm''
        · exact Or.inl (Or.inr h)
        · exact Or.inr ⟨m', hm'', h⟩

theorem le_foldMin_iff {g : Nat → Score} {x : Score} :
    ∀ (l : List Nat) (e : Score), x ≤ foldMin g l e ↔ x ≤ e ∧ ∀ m ∈ l, x ≤ g m := by
  intro l
  induction l with
  | nil => intro e; simp [foldMin]
  | cons m rest ih =>
    intro e
    have : foldMin g (m :: rest) e = foldMin g rest (min e (g m)) := rfl
    rw [this, ih, le_min_iff]
    constructor
    · rintro ⟨⟨he, hm⟩, hrest⟩
      refine ⟨he, ?_⟩
      intro m' hm'
      rcases List.mem_cons.mp hm' with rfl | hm''
      · exact hm
      · exact hrest m' hm''
    · rintro ⟨he, hall⟩
      exact ⟨⟨he, hall m (List.mem_cons_self _ _)⟩,
        fun m' hm' => hall m' (List.mem_cons_of_mem _ hm')⟩

/-! ## Unfolding and window-independence of the unpruned search -/

theorem minimaxNP_owon {fuel : Nat} {b : Board} {d : Nat} {t : Bool} {a bt : Score}
    (h : hasWon (some Mark.O) b = true) :
    minimaxNP fuel b d t a bt = sc (10 - (d : ℤ)) := by
  rw [minimaxNP.eq_def]
  simp [h]

theorem minimaxNP_xwon {fuel : Nat} {b : Board} {d : Nat} {t : Bool} {a bt : Score}
    (hO : hasWon (some Mark.O) b = false) (hX : hasWon (some Mark.X) b = true) :
    minimaxNP fuel b d t a bt = sc ((d : ℤ) - 10) := by
  rw [minimaxNP.eq_def]
  simp [hO, hX]

theorem minimaxNP_draw {fuel : Nat} {b : Board} {d : Nat} {t : Bool} {a bt : Score}
    (hO : hasWon (some Mark.O) b = false) (hX : hasWon (some Mark.X) b = false)
    (hD : checkDraw b = true) :
    minimaxNP fuel b d t a bt = sc 0 := by
  rw [minimaxNP.eq_def]
  simp [hO, hX, hD]

theorem minimaxNP_succ_max {fl : Nat} {b : Board} {d : Nat} {a bt : Score}
    (hO : hasWon (some Mark.O) b = false) (hX : hasWon (some Mark.X) b = false)
    (hD : checkDraw b = false) :
    minimaxNP (fl + 1) b d true a bt =
      npMaxLoop (fun m al => minimaxNP fl (b.set m (some Mark.O)) (d + 1) false al bt)
        (availableMoves b) ⊥ a := by
  rw [minimaxNP.eq_def]
  simp [hO, hX, hD]

theorem minimaxNP_succ_min {fl : Nat} {b : Board} {d : Nat} {a bt : Score}
    (hO : hasWon (some Mark.O) b = false) (hX : hasWon (some Mark.X) b = false)
    (hD : checkDraw b = false) :
    minimaxNP (fl + 1) b d false a bt =
      npMinLoop (fun m bt' => minimaxNP fl (b.set m (some Mark.X)) (d + 1) true a bt')
        (availableMoves b) ⊤ bt := by
  rw [minimaxNP.eq_def]
  simp [hO, hX, hD]

theorem npMaxLoop_congr_full {f g : Nat → Score → Score}
    (h : ∀ m a a', f m a = g m a') :
    ∀ (l : List Nat) (e a a' : Score), npMaxLoop f l e a = npMaxLoop g l e a' := by
  intro l
  induction l with
  | nil => intros; rfl
  | cons m rest ih =>
    intro e a a'
    simp only [npMaxLoop]
    rw [h m a a']
    exact ih _ _ _

theorem npMinLoop_congr_full {f g : Nat → Score → Score}
    (h : ∀ m bt bt', f m bt = g m bt') :
    ∀ (l : List Nat) (e bt bt' : Score), npMinLoop f l e bt = npMinLoop g l e bt' := by
  intro l
  induction l with
  | nil => intros; rfl
  | cons m rest ih =>
    intro e bt bt'
    simp only [npMinLoop]
    rw [h m bt bt']
    exact ih _ _ _

/-- The unpruned search ignores its alpha and beta arguments: with the break
removed the threaded bounds influence nothing. -/
theorem minimaxNP_window_irrel :
    ∀ (fuel : Nat) (b : Board) (d : Nat) (t : Bool) (a bt a' bt' : Score),
      minimaxNP fuel b d t a bt = minimaxNP fuel b d t a' bt' := by
  intro fuel
  induction fuel with
  | zero =>
    intro b d t a bt a' bt'
    by_cases hO : hasWon (some Mark.O) b
    · rw [minimaxNP_owon hO, minimaxNP_owon hO]
    · simp only [Bool.not_eq_true] at hO
      by_cases hX : hasWon (some Mark.X) b
      · rw [minimaxNP_xwon hO hX, minimaxNP_xwon hO hX]
      · simp only [Bool.not_eq_true] at hX
        rw [minimaxNP.eq_def, minimaxNP.eq_def]
  | succ fl ih =>
    intro b d t a bt a' bt'
    by_cases hO : hasWon (some Mark.O) b
    · rw [minimaxNP_owon hO, minimaxNP_owon hO]
    · simp only [Bool.not_eq_true] at hO
      by_cases hX : hasWon (some Mark.X) b
      · rw [minimaxNP_xwon hO hX, minimaxNP_xwon hO hX]
      · simp only [Bool.not_eq_true] at hX
        by_cases hD : checkDraw b
        · rw [minimaxNP_draw hO hX hD, minimaxNP_draw hO hX hD]
        · simp only [Bool.not_eq_true] at hD
          cases t
          · rw [minimaxNP_succ_min hO hX hD, minimaxNP_succ_min hO hX hD]
            apply npMinLoop_congr_full
            intro m x x'
            exact ih _ _ _ _ _ _ _
          · rw [minimaxNP_succ_max hO hX hD, minimaxNP_succ_max hO hX hD]
            apply npMaxLoop_congr_full
            intro m x x'
            exact ih _ _ _ _ _ _ _


theorem V_owon {fuel : Nat} {b : Board} {d : Nat} {t : Bool}
    (h : hasWon (some Mark.O) b = true) : V fuel b d t = sc (10 - (d : ℤ)) :=
  minimaxNP_owon h

theorem V_xwon {fuel : Nat} {b : Board} {d : Nat} {t : Bool}
    (hO : hasWon (some Mark.O) b = false) (hX : hasWon (some Mark.X) b = true) :
    V fuel b d t = sc ((d : ℤ) - 10) :=
  minimaxNP_xwon hO hX

theorem V_draw {fuel : Nat} {b : Board} {d : Nat} {t : Bool}
    (hO : hasWon (some Mark.O) b = false) (hX : hasWon (some Mark.X) b = false)
    (hD : checkDraw b = true) : V fuel b d t = sc 0 :=
  minimaxNP_draw hO hX hD

/-- Clean recursion for the value at a maximizing (bot-to-move) node. -/
theorem V_succ_max {fl : Nat} {b : Board} {d : Nat}
    (hO : hasWon (some Mark.O) b = false) (hX : hasWon (some Mark.X) b = false)
    (hD : checkDraw b = false) :
    V (fl + 1) b d true =
      foldMax (fun m => V fl (b.set m (some Mark.O)) (d + 1) false)
        (availableMoves b) ⊥ := by
  rw [V, minimaxNP_succ_max hO hX hD]
  apply npMaxLoop_eq_foldMax
  intro m a
  exact minimaxNP_window_irrel _ _ _ _ _ _ _ _

/-- Clean recursion for the value at a minimizing (player-to-move) node. -/
theorem V_succ_min {fl : Nat} {b : Board} {d : Nat}
    (hO : hasWon (some Mark.O) b = false) (hX : hasWon (some Mark.X) b = false)
    (hD : checkDraw b = false) :
    V (fl + 1) b d false =
      foldMin (fun m => V fl (b.set m (some Mark.X)) (d + 1) true)
        (availableMoves b) ⊤ := by
  rw [V, minimaxNP_succ_min hO hX hD]
  apply npMinLoop_eq_foldMin
  intro m bt
  exact minimaxNP_window_irrel _ _ _ _ _ _ _ _

/-- Any two sufficient fuels give the same value. -/
theorem V_adequate :
    ∀ (fuel fuel' : Nat) (b : Board) (d : Nat) (t : Bool), b.length = 9 →
      countEmpty b ≤ fuel → countEmpty b ≤ fuel' →
      V fuel b d t = V fuel' b d t := by
  intro fuel
  induction fuel with
  | zero =>
    intro fuel' b d t hW hf hf'
    have hzero : countEmpty b = 0 := by omega
    by_cases hO : hasWon (some Mark.O) b
    · rw [V_owon hO, V_owon hO]
    · simp only [Bool.not_eq_true] at hO
      by_cases hX : hasWon (some Mark.X) b
      · rw [V_xwon hO hX, V_xwon hO hX]
      · simp only [Bool.not_eq_true] at hX
        have hD := checkDraw_true_of_countEmpty_zero hW hzero
        rw [V_draw hO hX hD, V_draw hO hX hD]
  | succ fl ih =>
    intro fuel' b d t hW hf hf'
    by_cases hO : hasWon (some Mark.O) b
    · rw [V_owon hO, V_owon hO]
    · simp only [Bool.not_eq_true] at hO
      by_cases hX : hasWon (some Mark.X) b
      · rw [V_xwon hO hX, V_xwon hO hX]
      · simp only [Bool.not_eq_true] at hX
        by_cases hD : checkDraw b
        · rw [V_draw hO hX hD, V_draw hO hX hD]
        · simp only [Bool.not_eq_true] at hD
          have hpos : 0 < countEmpty b := countEmpty_pos_of_not_draw hW hD
          match fuel', hf' with
          | 0, hf' => omega
          | fl' + 1, hf' =>
            cases t
            · rw [V_succ_min hO hX hD, V_succ_min hO hX hD]
              apply foldMin_congr
              intro m hm
              have hce := countEmpty_set hW hm Mark.X
              exact ih fl' _ _ _ (by rw [length_set_board]; exact hW)
                (by omega) (by omega)
            · rw [V_succ_max hO hX hD, V_succ_max hO hX hD]
              apply foldMax_congr
              intro m hm
              have hce := countEmpty_set hW hm Mark.O
              exact ih fl' _ _ _ (by rw [length_set_board]; exact hW)
                (by omega) (by omega)

/-! ## Finiteness and bounds of the value -/

theorem le_foldMax_self {g : Nat → Score} (l : List Nat) (e : Score) :
    e ≤ foldMax g l e :=
  (le_foldMax_iff l e).mpr (Or.inl le_rfl)

theorem foldMin_le_self {g : Nat → Score} (l : List Nat) (e : Score) :
    foldMin g l e ≤ e :=
  (foldMin_le_iff l e).mpr (Or.inl le_rfl)

theorem foldMax_fin_aux {g : Nat → Score} :
    ∀ (l : List Nat) (w : ℤ), (∀ m ∈ l, ∃ z, g m = sc z) →
      ∃ z, foldMax g l (sc w) = sc z := by
  intro l
  induction l with
  | nil => intro w _; exact ⟨w, rfl⟩
  | cons m rest ih =>
    intro w h
    obtain ⟨zm, hzm⟩ := h m (List.mem_cons_self _ _)
    have hstep : foldMax g (m :: rest) (sc w) = foldMax g rest (max (sc w) (g m)) := rfl
    rw [hstep, hzm]
    rcases max_choice (sc w) (sc zm) with hmax | hmax <;> rw [hmax]
    · exact ih w fun x hx => h x (List.mem_cons_of_mem _ hx)
    · exact ih zm fun x hx => h x (List.mem_cons_of_mem _ hx)

theorem foldMax_fin {g : Nat → Score} {l : List Nat}
    (hl : l ≠ []) (h : ∀ m ∈ l, ∃ z, g m = sc z) :
    ∃ z, foldMax g l ⊥ = sc z := by
  match l, hl with
  | m :: rest, _ =>
    obtain ⟨zm, hzm⟩ := h m (List.mem_cons_self _ _)
    have hstep : foldMax g (m :: rest) (⊥ : Score) = foldMax g rest (max ⊥ (g m)) := rfl
    rw [hstep, max_eq_right bot_le, hzm]
    exact foldMax_fin_aux rest zm fun x hx => h x (List.mem_cons_of_mem _ hx)

theorem foldMin_fin_aux {g : Nat → Score} :
    ∀ (l : List Nat) (w : ℤ), (∀ m ∈ l, ∃ z, g m = sc z) →
      ∃ z, foldMin g l (sc w) = sc z := by
  intro l
  induction l with
  | nil => intro w _; exact ⟨w, rfl⟩
  | cons m rest ih =>
    intro w h
    obtain ⟨zm, hzm⟩ := h m (List.mem_cons_self _ _)
    have hstep : foldMin g (m :: rest) (sc w) = foldMin g rest (min (sc w) (g m)) := rfl
    rw [hstep, hzm]
    rcases min_choice (sc w) (sc zm) with hmin | hmin <;> rw [hmin]
    · exact ih w fun x hx => h x (List.mem_cons_of_mem _ hx)
    · exact ih zm fun x hx => h x (List.mem_cons_of_mem _ hx)

theorem foldMin_fin {g : Nat → Score} {l : List Nat}
    (hl : l ≠ []) (h : ∀ m ∈ l, ∃ z, g m = sc z) :
    ∃ z, foldMin g l ⊤ = sc z := by
  match l, hl with
  | m :: rest, _ =>
    obtain ⟨zm, hzm⟩ := h m (List.mem_cons_self _ _)
    have hstep : foldMin g (m :: rest) (⊤ : Score) = foldMin g rest (min ⊤ (g m)) := rfl
    rw [hstep, min_eq_right le_top, hzm]
    exact foldMin_fin_aux rest zm fun x hx => h x (List.mem_cons_of_mem _ hx)

theorem avail_ne_nil_of_countEmpty_pos {b : Board} (h : 0 < countEmpty b) :
    availableMoves b ≠ [] := by
  intro hnil
  rw [countEmpty, hnil] at h
  simp at h

theorem checkDraw_false_of_countEmpty_pos {b : Board} (hW : b.length = 9)
    (h : 0 < countEmpty b) : checkDraw b = false :=
  (avail_ne_nil_iff_not_draw hW).mp (avail_ne_nil_of_countEmpty_pos h)

/-- The value of a position is always a finite score on a 9-cell board. -/
theorem V_fin :
    ∀ (fuel : Nat) (b : Board) (d : Nat) (t : Bool), b.length = 9 →
      countEmpty b ≤ fuel → ∃ z, V fuel b d t = sc z := by
  intro fuel
  induction fuel with
  | zero =>
    intro b d t hW hf
    by_cases hO : hasWon (some Mark.O) b
    · exact ⟨10 - (d : ℤ), V_owon hO⟩
    · simp only [Bool.not_eq_true] at hO
      by_cases hX : hasWon (some Mark.X) b
      · exact ⟨(d : ℤ) - 10, V_xwon hO hX⟩
      · simp only [Bool.not_eq_true] at hX
        have hD := checkDraw_true_of_countEmpty_zero hW (by omega)
        exact ⟨0, V_draw hO hX hD⟩
  | succ fl ih =>
    intro b d t hW hf
    by_cases hO : hasWon (some Mark.O) b
    · exact ⟨10 - (d : ℤ), V_owon hO⟩
    · simp only [Bool.not_eq_true] at hO
      by_cases hX : hasWon (some Mark.X) b
      · exact ⟨(d : ℤ) - 10, V_xwon hO hX⟩
      · simp only [Bool.not_eq_true] at hX
        by_cases hD : checkDraw b
        · exact ⟨0, V_draw hO hX hD⟩
        · simp only [Bool.not_eq_true] at hD
          have hne : availableMoves b ≠ [] :=
            avail_ne_nil_of_countEmpty_pos (countEmpty_pos_of_not_draw hW hD)
          cases t
          · rw [V_succ_min hO hX hD]
            apply foldMin_fin hne
            intro m hm
            have hce := countEmpty_set hW hm Mark.X
            exact ih _ _ _ (by rw [length_set_board]; exact hW) (by omega)
          · rw [V_succ_max hO hX hD]
            apply foldMax_fin hne
            intro m hm
            have hce := countEmpty_set hW hm Mark.O
            exact ih _ _ _ (by rw [length_set_board]; exact hW) (by omega)

/-- Upper bound: no line can complete later than the board fills, so the value
never exceeds `10 - depth`. -/
theorem V_le_ub :
    ∀ (fuel : Nat) (b : Board) (d : Nat) (t : Bool), b.length = 9 →
      countEmpty b ≤ fuel → d + countEmpty b ≤ 9 →
      V fuel b d t ≤ sc (10 - (d : ℤ)) := by
  intro fuel
  induction fuel with
  | zero =>
    intro b d t hW hf hd
    by_cases hO : hasWon (some Mark.O) b
    · rw [V_owon hO]
    · simp only [Bool.not_eq_true] at hO
      by_cases hX : hasWon (some Mark.X) b
      · rw [V_xwon hO hX, sc_le_sc]; omega
      · simp only [Bool.not_eq_true] at hX
        have hD := checkDraw_true_of_countEmpty_zero hW (by omega)
        rw [V_draw hO hX hD, sc_le_sc]; omega
  | succ fl ih =>
    intro b d t hW hf hd
    by_cases hO : hasWon (some Mark.O) b
    · rw [V_owon hO]
    · simp only [Bool.not_eq_true] at hO
      by_cases hX : hasWon (some Mark.X) b
      · rw [V_xwon hO hX, sc_le_sc]; omega
      · simp only [Bool.not_eq_true] at hX
        by_cases hD : checkDraw b
        · rw [V_draw hO hX hD, sc_le_sc]; omega
        · simp only [Bool.not_eq_true] at hD
          have hpos := countEmpty_pos_of_not_draw hW hD
          have hne : availableMoves b ≠ [] := avail_ne_nil_of_countEmpty_pos hpos
          cases t
          · rw [V_succ_min hO hX hD]
            apply (foldMin_le_iff _ _).mpr
            right
            match havail : availableMoves b, hne with
            | m :: rest, _ =>
              have hm : m ∈ availableMoves b := by
                rw [havail]; exact List.mem_cons_self _ _
              refine ⟨m, List.mem_cons_self _ _, ?_⟩
              have hce := countEmpty_set hW hm Mark.X
              calc V fl (b.set m (some Mark.X)) (d + 1) true
                  ≤ sc (10 - ((d : ℤ) + 1)) := by
                    have := ih (b.set m (some Mark.X)) (d + 1) true
                      (by rw [length_set_board]; exact hW) (by omega) (by omega)
                    simpa using this
                _ ≤ sc (10 - (d : ℤ)) := by rw [sc_le_sc]; omega
          · rw [V_succ_max hO hX hD]
            apply (foldMax_le_iff _ _).mpr
            refine ⟨bot_le, ?_⟩
            intro m hm
            have hce := countEmpty_set hW hm Mark.O
            calc V fl (b.set m (some Mark.O)) (d + 1) false
                ≤ sc (10 - ((d : ℤ) + 1)) := by
                  have := ih (b.set m (some Mark.O)) (d + 1) false
                    (by rw [length_set_board]; exact hW) (by omega) (by omega)
                  simpa using this
              _ ≤ sc (10 - (d : ℤ)) := by rw [sc_le_sc]; omega

/-- Lower bound: the value never drops below `depth - 10`. -/
theorem V_ge_lb :
    ∀ (fuel : Nat) (b : Board) (d : Nat) (t : Bool), b.length = 9 →
      countEmpty b ≤ fuel → d + countEmpty b ≤ 9 →
      sc ((d : ℤ) - 10) ≤ V fuel b d t := by
  intro fuel
  induction fuel with
  | zero =>
    intro b d t hW hf hd
    by_cases hO : hasWon (some Mark.O) b
    · rw [V_owon hO, sc_le_sc]; omega
    · simp only [Bool.not_eq_true] at hO
      by_cases hX : hasWon (some Mark.X) b
      · rw [V_xwon hO hX]
      · simp only [Bool.not_eq_true] at hX
        have hD := checkDraw_true_of_countEmpty_zero hW (by omega)
        rw [V_draw hO hX hD, sc_le_sc]; omega
  | succ fl ih =>
    intro b d t hW hf hd
    by_cases hO : hasWon (some Mark.O) b
    · rw [V_owon hO, sc_le_sc]; omega
    · simp only [Bool.not_eq_true] at hO
      by_cases hX : hasWon (some Mark.X) b
      · rw [V_xwon hO hX]
      · simp only [Bool.not_eq_true] at hX
        by_cases hD : checkDraw b
        · rw [V_draw hO hX hD, sc_le_sc]; omega
        · simp only [Bool.not_eq_true] at hD
          have hpos := countEmpty_pos_of_not_draw hW hD
          have hne : availableMoves b ≠ [] := avail_ne_nil_of_countEmpty_pos hpos
          cases t
          · rw [V_succ_min hO hX hD]
            apply (le_foldMin_iff _ _).mpr
            refine ⟨le_top, ?_⟩
            intro m hm
            have hce := countEmpty_set hW hm Mark.X
            calc sc ((d : ℤ) - 10) ≤ sc (((d : ℤ) + 1) - 10) := by rw [sc_le_sc]; omega
              _ ≤ V fl (b.set m (some Mark.X)) (d + 1) true := by
                  have := ih (b.set m (some Mark.X)) (d + 1) true
                    (by rw [length_set_board]; exact hW) (by omega) (by omega)
                  simpa using this
          · rw [V_succ_max hO hX hD]
            apply (le_foldMax_iff _ _).mpr
            right
            match havail : availableMoves b, hne with
            | m :: rest, _ =>
              have hm : m ∈ availableMoves b := by
                rw [havail]; exact List.mem_cons_self _ _
              refine ⟨m, List.mem_cons_self _ _, ?_⟩
              have hce := countEmpty_set hW hm Mark.O
              calc sc ((d : ℤ) - 10) ≤ sc (((d : ℤ) + 1) - 10) := by rw [sc_le_sc]; omega
                _ ≤ V fl (b.set m (some Mark.O)) (d + 1) false := by
                    have := ih (b.set m (some Mark.O)) (d + 1) false
                      (by rw [length_set_board]; exact hW) (by omega) (by omega)
                    simpa using this

/-! ## Depth-invariance of the sign of the value -/

theorem not_sc_le_bot (z : ℤ) : ¬ sc z ≤ (⊥ : Score) := (bot_lt_sc z).not_le

/-- Whether a position is at least a draw for the bot does not depend on the
depth offset, as long as the total depth stays below 10 (all wins then score
positive and all losses negative). -/
theorem V_nonneg_shift :
    ∀ (fuel : Nat) (b : Board) (d d' : Nat) (t : Bool), b.length = 9 →
      countEmpty b ≤ fuel → d + countEmpty b ≤ 9 → d' + countEmpty b ≤ 9 →
      (sc 0 ≤ V fuel b d t ↔ sc 0 ≤ V fuel b d' t) := by
  intro fuel
  induction fuel with
  | zero =>
    intro b d d' t hW hf hd hd'
    by_cases hO : hasWon (some Mark.O) b
    · rw [V_owon hO, V_owon hO, sc_le_sc, sc_le_sc]
      constructor <;> intro _ <;> omega
    · simp only [Bool.not_eq_true] at hO
      by_cases hX : hasWon (some Mark.X) b
      · rw [V_xwon hO hX, V_xwon hO hX, sc_le_sc, sc_le_sc]
        constructor <;> intro _ <;> omega
      · simp only [Bool.not_eq_true] at hX
        have hD := checkDraw_true_of_countEmpty_zero hW (by omega)
        rw [V_draw hO hX hD, V_draw hO hX hD]
  | succ fl ih =>
    intro b d d' t hW hf hd hd'
    by_cases hO : hasWon (some Mark.O) b
    · rw [V_owon hO, V_owon hO, sc_le_sc, sc_le_sc]
      constructor <;> intro _ <;> omega
    · simp only [Bool.not_eq_true] at hO
      by_cases hX : hasWon (some Mark.X) b
      · rw [V_xwon hO hX, V_xwon hO hX, sc_le_sc, sc_le_sc]
        constructor <;> intro _ <;> omega
      · simp only [Bool.not_eq_true] at hX
        by_cases hD : checkDraw b
        · rw [V_draw hO hX hD, V_draw hO hX hD]
        · simp only [Bool.not_eq_true] at hD
          have hpos := countEmpty_pos_of_not_draw hW hD
          cases t
          · rw [V_succ_min hO hX hD, V_succ_min hO hX hD,
              le_foldMin_iff, le_foldMin_iff]
            constructor
            · rintro ⟨-, hall⟩
              refine ⟨le_top, ?_⟩
              intro m hm
              have hce := countEmpty_set hW hm Mark.X
              exact (ih _ (d + 1) (d' + 1) true (by rw [length_set_board]; exact hW)
                (by omega) (by omega) (by omega)).mp (hall m hm)
            · rintro ⟨-, hall⟩
              refine ⟨le_top, ?_⟩
              intro m hm
              have hce := countEmpty_set hW hm Mark.X
              exact (ih _ (d + 1) (d' + 1) true (by rw [length_set_board]; exact hW)
                (by omega) (by omega) (by omega)).mpr (hall m hm)
          · rw [V_succ_max hO hX hD, V_succ_max hO hX hD,
              le_foldMax_iff, le_foldMax_iff]
            constructor
            · rintro (hbot | ⟨m, hm, hle⟩)
              · exact absurd hbot (not_sc_le_bot 0)
              · refine Or.inr ⟨m, hm, ?_⟩
                have hce := countEmpty_set hW hm Mark.O
                exact (ih _ (d + 1) (d' + 1) false (by rw [length_set_board]; exact hW)
                  (by omega) (by omega) (by omega)).mp hle
            · rintro (hbot | ⟨m, hm, hle⟩)
              · exact absurd hbot (not_sc_le_bot 0)
              · refine Or.inr ⟨m, hm, ?_⟩
                have hce := countEmpty_set hW hm Mark.O
                exact (ih _ (d + 1) (d' + 1) false (by rw [length_set_board]; exact hW)
                  (by omega) (by omega) (by omega)).mpr hle

/-! ## The survival predicate matches nonnegativity of the value -/

theorem mem_orderedMoves {b : Board} {m : Nat} :
    m ∈ orderedMoves b ↔ m ∈ availableMoves b := by
  rw [mem_availableMoves]
  simp only [orderedMoves, List.mem_filter]
  constructor
  · rintro ⟨hml, hc⟩
    have hm9 : m < 9 := by
      simp only [List.mem_cons, List.not_mem_nil, or_false] at hml
      omega
    exact ⟨hm9, by simpa using hc⟩
  · rintro ⟨hm9, hc⟩
    refine ⟨?_, by simpa using hc⟩
    interval_cases m <;> simp

/-- With exact fuel, on an in-progress board, the bot's side is at least at a
draw (value ≥ 0) exactly when the survival search succeeds. -/
theorem V_nonneg_iff_survives :
    ∀ (fuel : Nat) (b : Board) (d : Nat) (t : Bool), b.length = 9 →
      hasWon (some Mark.O) b = false → hasWon (some Mark.X) b = false →
      fuel = countEmpty b → d + countEmpty b ≤ 9 →
      (sc 0 ≤ V fuel b d t ↔ survives fuel t b = true) := by
  intro fuel
  induction fuel with
  | zero =>
    intro b d t hW hO hX hf hd
    have hD := checkDraw_true_of_countEmpty_zero hW (by omega)
    rw [V_draw hO hX hD, survives]
    simp [sc_le_sc]
  | succ fl ih =>
    intro b d t hW hO hX hf hd
    have hpos : 0 < countEmpty b := by omega
    have hD := checkDraw_false_of_countEmpty_pos hW hpos
    have hmain : ∀ m ∈ availableMoves b, ∀ mk : Mark,
        hasWon (some mk) b = false →
        (hasWon (some mk) (b.set m (some mk)) =
          wonAt (some mk) (b.set m (some mk)) m) := by
      intro m hm mk hmk
      obtain ⟨hm9, hcty⟩ := mem_availableMoves.mp hm
      exact hasWon_set_self_eq_wonAt hW hm9 hcty hmk
    cases t
    · -- X to move: minimizing node vs `all`
      rw [V_succ_min hO hX hD, le_foldMin_iff, survives]
      simp only [Bool.false_eq_true, if_false, List.all_eq_true]
      constructor
      · rintro ⟨-, hall⟩
        intro m hm'
        have hm : m ∈ availableMoves b := mem_orderedMoves.mp hm'
        obtain ⟨hm9, hcty⟩ := mem_availableMoves.mp hm
        have hval := hall m hm
        have hO' : hasWon (some Mark.O) (b.set m (some Mark.X)) = false := by
          rw [hasWon_set_other hW hm9 hcty (by decide)]; exact hO
        have hce := countEmpty_set hW hm Mark.X
        have hW' : (b.set m (some Mark.X)).length = 9 := by
          rw [length_set_board]; exact hW
        by_cases hwon : wonAt (some Mark.X) (b.set m (some Mark.X)) m = true
        · exfalso
          have hX' : hasWon (some Mark.X) (b.set m (some Mark.X)) = true := by
            rw [hmain m hm Mark.X hX]; exact hwon
          rw [V_xwon hO' hX'] at hval
          rw [sc_le_sc] at hval
          push_cast at hval
          omega
        · simp only [Bool.not_eq_true] at hwon
          simp only [hwon, Bool.false_eq_true, if_false]
          have hX' : hasWon (some Mark.X) (b.set m (some Mark.X)) = false := by
            rw [hmain m hm Mark.X hX]; exact hwon
          match fl, hf, hce with
          | 0, hf, hce => rfl
          | fk + 1, hf, hce =>
            exact (ih _ (d + 1) true hW' hO' hX' (by omega) (by omega)).mp hval
      · intro hall
        refine ⟨le_top, ?_⟩
        intro m hm
        have hm' : m ∈ orderedMoves b := mem_orderedMoves.mpr hm
        obtain ⟨hm9, hcty⟩ := mem_availableMoves.mp hm
        have hbranch := hall m hm'
        have hO' : hasWon (some Mark.O) (b.set m (some Mark.X)) = false := by
          rw [hasWon_set_other hW hm9 hcty (by decide)]; exact hO
        have hce := countEmpty_set hW hm Mark.X
        have hW' : (b.set m (some Mark.X)).length = 9 := by
          rw [length_set_board]; exact hW
        by_cases hwon : wonAt (some Mark.X) (b.set m (some Mark.X)) m = true
        · simp only [hwon, if_true] at hbranch
          cases hbranch
        · simp only [Bool.not_eq_true] at hwon
          simp only [hwon, Bool.false_eq_true, if_false] at hbranch
          have hX' : hasWon (some Mark.X) (b.set m (some Mark.X)) = false := by
            rw [hmain m hm Mark.X hX]; exact hwon
          match fl, hf, hce, hbranch with
          | 0, hf, hce, hbranch =>
            have hD' := checkDraw_true_of_countEmpty_zero hW' (by omega)
            rw [V_draw hO' hX' hD', sc_le_sc]
          | fk + 1, hf, hce, hbranch =>
            exact (ih _ (d + 1) true hW' hO' hX' (by omega) (by omega)).mpr hbranch
    · -- O to move: maximizing node vs `any`
      rw [V_succ_max hO hX hD, le_foldMax_iff, survives]
      simp only [if_true, List.any_eq_true]
      constructor
      · rintro (hbot | ⟨m, hm, hval⟩)
        · exact absurd hbot (not_sc_le_bot 0)
        · refine ⟨m, mem_orderedMoves.mpr hm, ?_⟩
          obtain ⟨hm9, hcty⟩ := mem_availableMoves.mp hm
          have hX' : hasWon (some Mark.X) (b.set m (some Mark.O)) = false := by
            rw [hasWon_set_other hW hm9 hcty (by decide)]; exact hX
          have hce := countEmpty_set hW hm Mark.O
          have hW' : (b.set m (some Mark.O)).length = 9 := by
            rw [length_set_board]; exact hW
          by_cases hwon : wonAt (some Mark.O) (b.set m (some Mark.O)) m = true
          · simp [hwon]
          · simp only [Bool.not_eq_true] at hwon
            simp only [hwon, Bool.false_eq_true, if_false]
            have hO' : hasWon (some Mark.O) (b.set m (some Mark.O)) = false := by
              rw [hmain m hm Mark.O hO]; exact hwon
            match fl, hf, hce with
            | 0, hf, hce => rfl
            | fk + 1, hf, hce =>
              exact (ih _ (d + 1) false hW' hO' hX' (by omega) (by omega)).mp hval
      · rintro ⟨m, hm', hbranch⟩
        have hm : m ∈ availableMoves b := mem_orderedMoves.mp hm'
        refine Or.inr ⟨m, hm, ?_⟩
        obtain ⟨hm9, hcty⟩ := mem_availableMoves.mp hm
        have hX' : hasWon (some Mark.X) (b.set m (some Mark.O)) = false := by
          rw [hasWon_set_other hW hm9 hcty (by decide)]; exact hX
        have hce := countEmpty_set hW hm Mark.O
        have hW' : (b.set m (some Mark.O)).length = 9 := by
          rw [length_set_board]; exact hW
        by_cases hwon : wonAt (some Mark.O) (b.set m (some Mark.O)) m = true
        · have hO' : hasWon (some Mark.O) (b.set m (some Mark.O)) = true := by
            rw [hmain m hm Mark.O hO]; exact hwon
          rw [V_owon hO', sc_le_sc]
          push_cast
          omega
        · simp only [Bool.not_eq_true] at hwon
          simp only [hwon, Bool.false_eq_true, if_false] at hbranch
          have hO' : hasWon (some Mark.O) (b.set m (some Mark.O)) = false := by
            rw [hmain m hm Mark.O hO]; exact hwon
          match fl, hf, hce, hbranch with
          | 0, hf, hce, hbranch =>
            have hD' := checkDraw_true_of_countEmpty_zero hW' (by omega)
            rw [V_draw hO' hX' hD', sc_le_sc]
          | fk + 1, hf, hce, hbranch =>
            exact (ih _ (d + 1) false hW' hO' hX' (by omega) (by omega)).mpr hbranch

/-! ## Knuth–Moore correctness of alpha-beta pruning -/


theorem maxLoopKM {f : Nat → Score → Score} {gv : Nat → Score} {al bt : Score}
    (hab : al < bt) :
    ∀ (ms : List Nat) (e u : Score),
      (∀ m ∈ ms, ∀ a, al ≤ a → a < bt → KMrel a bt (f m a) (gv m)) →
      e < bt → KMrel al bt e u →
      KMrel al bt (maxLoop f bt ms e (max al e)) (foldMax gv ms u) := by
  intro ms
  induction ms with
  | nil => intro e u _ _ hrel; exact hrel
  | cons m rest ih =>
    intro e u hch he hrel
    obtain ⟨hr1, hr2, hr3⟩ := hrel
    have ha0l : al ≤ max al e := le_max_left _ _
    have ha0b : max al e < bt := max_lt hab he
    obtain ⟨hp1, hp2, hp3⟩ := hch m (List.mem_cons_self _ _) (max al e) ha0l ha0b
    have hchrest : ∀ m' ∈ rest, ∀ a, al ≤ a → a < bt → KMrel a bt (f m' a) (gv m') :=
      fun m' hm' => hch m' (List.mem_cons_of_mem _ hm')
    have hfold : foldMax gv (m :: rest) u = foldMax gv rest (max u (gv m)) := rfl
    have hloop : maxLoop f bt (m :: rest) e (max al e) =
        (if bt ≤ max (max al e) (f m (max al e)) then max e (f m (max al e))
         else maxLoop f bt rest (max e (f m (max al e)))
           (max (max al e) (f m (max al e)))) := rfl
    rw [hfold, hloop]
    by_cases hbr : bt ≤ max (max al e) (f m (max al e))
    · rw [if_pos hbr]
      have hevb : bt ≤ f m (max al e) := by
        by_contra hlt
        push_neg at hlt
        exact absurd hbr (not_le.mpr (max_lt ha0b hlt))
      have he'ev : max e (f m (max al e)) = f m (max al e) :=
        max_eq_right (le_of_lt (lt_of_lt_of_le he hevb))
      rw [he'ev]
      refine ⟨?_, ?_, ?_⟩
      · intro h
        exact absurd (lt_of_lt_of_le hab (le_trans hevb h)) (lt_irrefl al)
      · intro _ h
        exact absurd (lt_of_le_of_lt hevb h) (lt_irrefl _)
      · intro _
        calc f m (max al e) ≤ gv m := hp3 hevb
          _ ≤ max u (gv m) := le_max_right _ _
          _ ≤ foldMax gv rest (max u (gv m)) := le_foldMax_self _ _
    · rw [if_neg hbr]
      push_neg at hbr
      have hevlt : f m (max al e) < bt := lt_of_le_of_lt (le_max_right _ _) hbr
      have he'lt : max e (f m (max al e)) < bt := max_lt he hevlt
      have halign : max (max al e) (f m (max al e)) = max al (max e (f m (max al e))) :=
        max_assoc al e (f m (max al e))
      have hrel' : KMrel al bt (max e (f m (max al e))) (max u (gv m)) := by
        refine ⟨?_, ?_, ?_⟩
        · -- fail low: both contributions are at most the bound
          intro h
          have hel : e ≤ al := le_trans (le_max_left _ _) h
          have hevl : f m (max al e) ≤ al := le_trans (le_max_right _ _) h
          have hvml : gv m ≤ f m (max al e) := hp1 (le_trans hevl ha0l)
          exact max_le (le_trans (hr1 hel) (le_max_left _ _))
            (le_trans hvml (le_max_right _ _))
        · intro hlow hhigh
          by_cases hee : f m (max al e) ≤ e
          · have he' : max e (f m (max al e)) = e := max_eq_left hee
            rw [he'] at hlow hhigh ⊢
            have hu : u = e := hr2 hlow hhigh
            have hvm : gv m ≤ f m (max al e) :=
              hp1 (le_trans hee (le_max_right _ _))
            rw [hu]
            exact max_eq_left (le_trans hvm (le_trans hee le_rfl))
          · push_neg at hee
            have he' : max e (f m (max al e)) = f m (max al e) :=
              max_eq_right (le_of_lt hee)
            rw [he'] at hlow hhigh ⊢
            by_cases hva : f m (max al e) ≤ max al e
            · exfalso
              have : f m (max al e) ≤ al := by
                rcases max_cases al e with ⟨hm1, _⟩ | ⟨hm1, _⟩
                · exact le_trans hva (le_of_eq hm1)
                · exact absurd (lt_of_lt_of_le hee (le_trans hva (le_of_eq hm1)))
                    (lt_irrefl _)
              exact absurd (lt_of_lt_of_le hlow this) (lt_irrefl al)
            · push_neg at hva
              have hvm : gv m = f m (max al e) := hp2 hva hhigh
              have hue : u ≤ f m (max al e) := by
                by_cases heal : e ≤ al
                · exact le_trans (hr1 heal) (le_of_lt hee)
                · push_neg at heal
                  have := hr2 heal he
                  rw [this]
                  exact le_of_lt hee
              rw [hvm]
              exact max_eq_right hue
        · intro h
          exact absurd (lt_of_le_of_lt h he'lt) (lt_irrefl bt)
      rw [halign]
      exact ih _ _ hchrest he'lt hrel'

theorem minLoopKM {f : Nat → Score → Score} {gv : Nat → Score} {al bt : Score}
    (hab : al < bt) :
    ∀ (ms : List Nat) (e u : Score),
      (∀ m ∈ ms, ∀ btv, al < btv → btv ≤ bt → KMrel al btv (f m btv) (gv m)) →
      al < e → KMrel al bt e u →
      KMrel al bt (minLoop f al ms e (min bt e)) (foldMin gv ms u) := by
  intro ms
  induction ms with
  | nil => intro e u _ _ hrel; exact hrel
  | cons m rest ih =>
    intro e u hch he hrel
    obtain ⟨hr1, hr2, hr3⟩ := hrel
    have hb0r : min bt e ≤ bt := min_le_left _ _
    have hb0a : al < min bt e := lt_min hab he
    obtain ⟨hp1, hp2, hp3⟩ := hch m (List.mem_cons_self _ _) (min bt e) hb0a hb0r
    have hchrest : ∀ m' ∈ rest, ∀ btv, al < btv → btv ≤ bt → KMrel al btv (f m' btv) (gv m') :=
      fun m' hm' => hch m' (List.mem_cons_of_mem _ hm')
    have hfold : foldMin gv (m :: rest) u = foldMin gv rest (min u (gv m)) := rfl
    have hloop : minLoop f al (m :: rest) e (min bt e) =
        (if min (min bt e) (f m (min bt e)) ≤ al then min e (f m (min bt e))
         else minLoop f al rest (min e (f m (min bt e)))
           (min (min bt e) (f m (min bt e)))) := rfl
    rw [hfold, hloop]
    by_cases hbr : min (min bt e) (f m (min bt e)) ≤ al
    · rw [if_pos hbr]
      have heva : f m (min bt e) ≤ al := by
        by_contra hlt
        push_neg at hlt
        exact absurd hbr (not_le.mpr (lt_min hb0a hlt))
      have he'ev : min e (f m (min bt e)) = f m (min bt e) :=
        min_eq_right (le_of_lt (lt_of_le_of_lt heva he))
      rw [he'ev]
      refine ⟨?_, ?_, ?_⟩
      · intro _
        calc foldMin gv rest (min u (gv m)) ≤ min u (gv m) := foldMin_le_self _ _
          _ ≤ gv m := min_le_right _ _
          _ ≤ f m (min bt e) := hp1 heva
      · intro h _
        exact absurd (lt_of_lt_of_le h heva) (lt_irrefl al)
      · intro h
        exact absurd (lt_of_le_of_lt (le_trans h heva) hab) (lt_irrefl bt)
    · rw [if_neg hbr]
      push_neg at hbr
      have hevgt : al < f m (min bt e) := lt_of_lt_of_le hbr (min_le_right _ _)
      have he'gt : al < min e (f m (min bt e)) := lt_min he hevgt
      have halign : min (min bt e) (f m (min bt e)) = min bt (min e (f m (min bt e))) :=
        min_assoc bt e (f m (min bt e))
      have hrel' : KMrel al bt (min e (f m (min bt e))) (min u (gv m)) := by
        refine ⟨?_, ?_, ?_⟩
        · intro h
          exact absurd (lt_of_lt_of_le he'gt h) (lt_irrefl al)
        · intro hlow hhigh
          by_cases hee : e ≤ f m (min bt e)
          · have he' : min e (f m (min bt e)) = e := min_eq_left hee
            rw [he'] at hlow hhigh ⊢
            have hu : u = e := hr2 hlow hhigh
            have hvm : f m (min bt e) ≤ gv m :=
              hp3 (le_trans (min_le_right _ _) hee)
            rw [hu]
            exact min_eq_left (le_trans hee hvm)
          · push_neg at hee
            have he' : min e (f m (min bt e)) = f m (min bt e) :=
              min_eq_right (le_of_lt hee)
            rw [he'] at hlow hhigh ⊢
            by_cases hva : min bt e ≤ f m (min bt e)
            · exfalso
              have : bt ≤ f m (min bt e) := by
                rcases min_cases bt e with ⟨hm1, _⟩ | ⟨hm1, _⟩
                · exact le_trans (le_of_eq hm1.symm) hva
                · exact absurd (lt_of_le_of_lt (le_trans (le_of_eq hm1.symm) hva) hee)
                    (lt_irrefl _)
              exact absurd (lt_of_lt_of_le hhigh this) (lt_irrefl _)
            · push_neg at hva
              have hvm : gv m = f m (min bt e) := hp2 hlow hva
              have hue : f m (min bt e) ≤ u := by
                by_cases hbte : bt ≤ e
                · exact le_trans (le_of_lt hee) (hr3 hbte)
                · push_neg at hbte
                  have := hr2 he hbte
                  rw [this]
                  exact le_of_lt hee
              rw [hvm]
              exact min_eq_right hue
        · intro h
          have hbte : bt ≤ e := le_trans h (min_le_left _ _)
          have hbtev : bt ≤ f m (min bt e) := le_trans h (min_le_right _ _)
          have hvm : f m (min bt e) ≤ gv m := hp3 (le_trans (min_le_left _ _) hbtev)
          exact min_le_min (hr3 hbte) hvm
      rw [halign]
      exact ih _ _ hchrest he'gt hrel'

theorem minimax_owon {fuel : Nat} {b : Board} {d : Nat} {t : Bool} {a bt : Score}
    (h : hasWon (some Mark.O) b = true) :
    minimax fuel b d t a bt = sc (10 - (d : ℤ)) := by
  rw [minimax.eq_def]
  simp [h]

theorem minimax_xwon {fuel : Nat} {b : Board} {d : Nat} {t : Bool} {a bt : Score}
    (hO : hasWon (some Mark.O) b = false) (hX : hasWon (some Mark.X) b = true) :
    minimax fuel b d t a bt = sc ((d : ℤ) - 10) := by
  rw [minimax.eq_def]
  simp [hO, hX]

theorem minimax_draw {fuel : Nat} {b : Board} {d : Nat} {t : Bool} {a bt : Score}
    (hO : hasWon (some Mark.O) b = false) (hX : hasWon (some Mark.X) b = false)
    (hD : checkDraw b = true) :
    minimax fuel b d t a bt = sc 0 := by
  rw [minimax.eq_def]
  simp [hO, hX, hD]

theorem minimax_succ_max {fl : Nat} {b : Board} {d : Nat} {a bt : Score}
    (hO : hasWon (some Mark.O) b = false) (hX : hasWon (some Mark.X) b = false)
    (hD : checkDraw b = false) :
    minimax (fl + 1) b d true a bt =
      maxLoop (fun m al => minimax fl (b.set m (some Mark.O)) (d + 1) false al bt)
        bt (availableMoves b) ⊥ a := by
  rw [minimax.eq_def]
  simp [hO, hX, hD]

theorem minimax_succ_min {fl : Nat} {b : Board} {d : Nat} {a bt : Score}
    (hO : hasWon (some Mark.O) b = false) (hX : hasWon (some Mark.X) b = false)
    (hD : checkDraw b = false) :
    minimax (fl + 1) b d false a bt =
      minLoop (fun m bt' => minimax fl (b.set m (some Mark.X)) (d + 1) true a bt')
        a (availableMoves b) ⊤ bt := by
  rw [minimax.eq_def]
  simp [hO, hX, hD]

theorem KMrel_of_eq {al bt g : Score} : KMrel al bt g g :=
  ⟨fun _ => le_rfl, fun _ _ => rfl, fun _ => le_rfl⟩

/-- Knuth–Moore theorem for the source's fail-soft alpha-beta `minimax`: at any
window `alpha < beta` the returned score fails low with an upper bound on the
true value, fails high with a lower bound, or is exact inside the window. -/
theorem minimax_KM :
    ∀ (fuel : Nat) (b : Board) (d : Nat) (t : Bool) (al bt : Score), b.length = 9 →
      countEmpty b ≤ fuel → al < bt →
      KMrel al bt (minimax fuel b d t al bt) (V fuel b d t) := by
  intro fuel
  induction fuel with
  | zero =>
    intro b d t al bt hW hf hab
    by_cases hO : hasWon (some Mark.O) b
    · rw [minimax_owon hO, V_owon hO]; exact KMrel_of_eq
    · simp only [Bool.not_eq_true] at hO
      by_cases hX : hasWon (some Mark.X) b
      · rw [minimax_xwon hO hX, V_xwon hO hX]; exact KMrel_of_eq
      · simp only [Bool.not_eq_true] at hX
        have hD := checkDraw_true_of_countEmpty_zero hW (by omega)
        rw [minimax_draw hO hX hD, V_draw hO hX hD]; exact KMrel_of_eq
  | succ fl ih =>
    intro b d t al bt hW hf hab
    by_cases hO : hasWon (some Mark.O) b
    · rw [minimax_owon hO, V_owon hO]; exact KMrel_of_eq
    · simp only [Bool.not_eq_true] at hO
      by_cases hX : hasWon (some Mark.X) b
      · rw [minimax_xwon hO hX, V_xwon hO hX]; exact KMrel_of_eq
      · simp only [Bool.not_eq_true] at hX
        by_cases hD : checkDraw b
        · rw [minimax_draw hO hX hD, V_draw hO hX hD]; exact KMrel_of_eq
        · simp only [Bool.not_eq_true] at hD
          cases t
          · rw [minimax_succ_min hO hX hD, V_succ_min hO hX hD]
            have hch : ∀ m ∈ availableMoves b, ∀ btv : Score, al < btv → btv ≤ bt →
                KMrel al btv
                  (minimax fl (b.set m (some Mark.X)) (d + 1) true al btv)
                  (V fl (b.set m (some Mark.X)) (d + 1) true) := by
              intro m hm btv habv _
              have hce := countEmpty_set hW hm Mark.X
              exact ih _ _ _ _ _ (by rw [length_set_board]; exact hW) (by omega) habv
            have := minLoopKM hab (availableMoves b) ⊤ ⊤ hch
              (lt_of_lt_of_le hab le_top) KMrel_of_eq
            rwa [min_eq_left le_top] at this
          · rw [minimax_succ_max hO hX hD, V_succ_max hO hX hD]
            have hch : ∀ m ∈ availableMoves b, ∀ a : Score, al ≤ a → a < bt →
                KMrel a bt
                  (minimax fl (b.set m (some Mark.O)) (d + 1) false a bt)
                  (V fl (b.set m (some Mark.O)) (d + 1) false) := by
              intro m hm a _ habv
              have hce := countEmpty_set hW hm Mark.O
              exact ih _ _ _ _ _ (by rw [length_set_board]; exact hW) (by omega) habv
            have := maxLoopKM hab (availableMoves b) ⊥ ⊥ hch
              (lt_of_le_of_lt bot_le hab) KMrel_of_eq
            rwa [max_eq_left bot_le] at this

/-- At the full window the pruned search computes exactly the unpruned value. -/
theorem minimax_fullwindow_eq_V (fuel : Nat) (b : Board) (d : Nat) (t : Bool)
    (hW : b.length = 9) (hf : countEmpty b ≤ fuel) :
    minimax fuel b d t ⊥ ⊤ = V fuel b d t := by
  have hab : (⊥ : Score) < ⊤ := bot_lt_top
  obtain ⟨z, hz⟩ := V_fin fuel b d t hW hf
  obtain ⟨k1, k2, k3⟩ := minimax_KM fuel b d t ⊥ ⊤ hW hf hab
  by_cases h1 : minimax fuel b d t ⊥ ⊤ ≤ ⊥
  · exfalso
    have hv := k1 h1
    rw [hz] at hv
    exact not_sc_le_bot z (le_trans hv h1)
  · by_cases h3 : (⊤ : Score) ≤ minimax fuel b d t ⊥ ⊤
    · exfalso
      have hv := k3 h3
      rw [hz] at hv
      exact (sc_lt_top z).not_le (le_trans h3 hv)
    · push_neg at h1 h3
      exact (k2 h1 h3).symm

/-! ## The move returned by botPlayer -/

theorem bestLoop_mem {score : Nat → Score} {l : List Nat} :
    ∀ (ms : List Nat) (bm : Nat) (bs : Score), bm ∈ l → (∀ x ∈ ms, x ∈ l) →
      bestLoop score ms bm bs ∈ l := by
  intro ms
  induction ms with
  | nil => intro bm bs hbm _; exact hbm
  | cons m rest ih =>
    intro bm bs hbm hsub
    simp only [bestLoop]
    by_cases hlt : bs < score m
    · rw [if_pos hlt]
      exact ih m (score m) (hsub m (List.mem_cons_self _ _))
        fun x hx => hsub x (List.mem_cons_of_mem _ hx)
    · rw [if_neg hlt]
      exact ih bm bs hbm fun x hx => hsub x (List.mem_cons_of_mem _ hx)

theorem bestLoop_score_eq (score : Nat → Score) :
    ∀ (ms : List Nat) (bm : Nat) (bs : Score), bs = score bm →
      score (bestLoop score ms bm bs) = foldMax score ms bs := by
  intro ms
  induction ms with
  | nil => intro bm bs hbs; exact hbs.symm
  | cons m rest ih =>
    intro bm bs hbs
    have hfold : foldMax score (m :: rest) bs = foldMax score rest (max bs (score m)) := rfl
    simp only [bestLoop]
    by_cases hlt : bs < score m
    · rw [if_pos hlt, hfold, max_eq_right (le_of_lt hlt)]
      exact ih m (score m) rfl
    · rw [if_neg hlt, hfold, max_eq_left (le_of_not_lt hlt)]
      exact ih bm bs hbs

theorem botPlayer_empty_eq {r : Fin 4} {b : Board}
    (h0 : (availableMoves b).length = 0) : botPlayer r b = -1 := by
  simp only [botPlayer]
  rw [if_pos h0]

theorem botPlayer_nine_eq {r : Fin 4} {b : Board}
    (h0 : (availableMoves b).length ≠ 0) (h9 : (availableMoves b).length = 9) :
    botPlayer r b = Int.ofNat (corners.getD (r : Nat) 0) := by
  simp only [botPlayer]
  rw [if_neg h0, if_pos h9]

theorem botPlayer_one_eq {r : Fin 4} {b : Board}
    (h0 : (availableMoves b).length ≠ 0) (h9 : (availableMoves b).length ≠ 9)
    (h1 : (availableMoves b).length = 1) :
    botPlayer r b = Int.ofNat ((availableMoves b).headD 0) := by
  simp only [botPlayer]
  rw [if_neg h0, if_neg h9, if_pos h1]

theorem botPlayer_general_eq {r : Fin 4} {b : Board}
    (h0 : (availableMoves b).length ≠ 0) (h9 : (availableMoves b).length ≠ 9)
    (h1 : (availableMoves b).length ≠ 1) :
    botPlayer r b = Int.ofNat
      (bestLoop (fun m => minimax 9 (b.set m (some Mark.O)) 0 false ⊥ ⊤)
        (availableMoves b) ((availableMoves b).headD 0) ⊥) := by
  simp only [botPlayer]
  rw [if_neg h0, if_neg h9, if_neg h1]

theorem avail_eq_range_of_len_nine {b : Board}
    (h9 : (availableMoves b).length = 9) : ∀ i < 9, cellAt b i = none := by
  intro i hi
  have : ∀ a ∈ List.range BOARD_SIZE, (decide (cellAt b a = none)) = true := by
    rw [← List.filter_length_eq_length]
    simpa [availableMoves, BOARD_SIZE] using h9
  have := this i (by simp [BOARD_SIZE]; omega)
  simpa using this

/-- When the board has an empty cell, `botPlayer` returns one of the available
moves (encoded as a nonnegative integer). -/
theorem botPlayer_mem {r : Fin 4} {b : Board}
    (hne : availableMoves b ≠ []) :
    (botPlayer r b).toNat ∈ availableMoves b ∧
      botPlayer r b = Int.ofNat ((botPlayer r b).toNat) := by
  have h0 : (availableMoves b).length ≠ 0 := by
    intro h
    exact hne (List.length_eq_zero.mp h)
  by_cases h9 : (availableMoves b).length = 9
  · rw [botPlayer_nine_eq h0 h9]
    have hall := avail_eq_range_of_len_nine h9
    have hc : corners.getD (r : Nat) 0 ∈ availableMoves b := by
      have hlt : corners.getD (r : Nat) 0 < 9 := by
        fin_cases r <;> decide
      exact mem_availableMoves.mpr ⟨hlt, hall _ hlt⟩
    exact ⟨hc, rfl⟩
  · by_cases h1 : (availableMoves b).length = 1
    · rw [botPlayer_one_eq h0 h9 h1]
      match havail : availableMoves b, h1 with
      | [m], _ => exact ⟨List.mem_singleton_self m, rfl⟩
    · rw [botPlayer_general_eq h0 h9 h1]
      have hhead : (availableMoves b).headD 0 ∈ availableMoves b := by
        match havail : availableMoves b, hne with
        | m :: rest, _ => exact List.mem_cons_self _ _
      exact ⟨bestLoop_mem _ _ _ hhead fun x hx => hx, rfl⟩

theorem toNat_ofNat_eq (n : Nat) : (Int.ofNat n).toNat = n := rfl

/-- In the search branch, the score of the move `botPlayer` picks is the
maximum of the scores of all available moves. -/
theorem botPlayer_argmax {r : Fin 4} {b : Board} (hW : b.length = 9)
    (h0 : (availableMoves b).length ≠ 0) (h9 : (availableMoves b).length ≠ 9)
    (h1 : (availableMoves b).length ≠ 1) :
    minimax 9 (b.set (botPlayer r b).toNat (some Mark.O)) 0 false ⊥ ⊤ =
      foldMax (fun m => minimax 9 (b.set m (some Mark.O)) 0 false ⊥ ⊤)
        (availableMoves b) ⊥ := by
  rw [botPlayer_general_eq h0 h9 h1, toNat_ofNat_eq]
  match havail : availableMoves b, h0 with
  | m0 :: rest, _ =>
    have hm0 : m0 ∈ availableMoves b := by rw [havail]; exact List.mem_cons_self _ _
    have hWc : (b.set m0 (some Mark.O)).length = 9 := by
      rw [length_set_board]; exact hW
    obtain ⟨z, hz⟩ : ∃ z, minimax 9 (b.set m0 (some Mark.O)) 0 false ⊥ ⊤ = sc z := by
      rw [minimax_fullwindow_eq_V 9 _ 0 false hWc
        (le_trans (countEmpty_le_nine _) (by omega))]
      exact V_fin 9 _ 0 false hWc (le_trans (countEmpty_le_nine _) (by omega))
    have hstep : bestLoop (fun m => minimax 9 (b.set m (some Mark.O)) 0 false ⊥ ⊤)
        (m0 :: rest) ((m0 :: rest).headD 0) ⊥ =
        bestLoop (fun m => minimax 9 (b.set m (some Mark.O)) 0 false ⊥ ⊤)
          rest m0 (minimax 9 (b.set m0 (some Mark.O)) 0 false ⊥ ⊤) := by
      simp only [List.headD, bestLoop]
      rw [if_pos (by rw [hz]; exact bot_lt_sc z)]
    rw [hstep]
    have hfold : foldMax (fun m => minimax 9 (b.set m (some Mark.O)) 0 false ⊥ ⊤)
        (m0 :: rest) ⊥ =
        foldMax (fun m => minimax 9 (b.set m (some Mark.O)) 0 false ⊥ ⊤) rest
          (max ⊥ (minimax 9 (b.set m0 (some Mark.O)) 0 false ⊥ ⊤)) := rfl
    have hmain : minimax 9
        (List.set b
          (bestLoop (fun m => minimax 9 (List.set b m (some Mark.O)) 0 false ⊥ ⊤) rest m0
            (minimax 9 (List.set b m0 (some Mark.O)) 0 false ⊥ ⊤))
          (some Mark.O)) 0 false ⊥ ⊤ =
        foldMax (fun m => minimax 9 (List.set b m (some Mark.O)) 0 false ⊥ ⊤) rest
          (minimax 9 (List.set b m0 (some Mark.O)) 0 false ⊥ ⊤) :=
      bestLoop_score_eq (fun m => minimax 9 (List.set b m (some Mark.O)) 0 false ⊥ ⊤)
        rest m0 _ rfl
    rw [hmain, hfold, max_eq_right bot_le]

/-- If the bot has not already won, the value stays below `10 - depth`: a win
costs at least one more ply. -/
theorem V_le_nine_of_no_owin {fuel : Nat} {b : Board} {d : Nat} {t : Bool}
    (hW : b.length = 9) (hf : countEmpty b ≤ fuel) (hd : d + countEmpty b ≤ 9)
    (hO : hasWon (some Mark.O) b = false) :
    V fuel b d t ≤ sc (9 - (d : ℤ)) := by
  by_cases hX : hasWon (some Mark.X) b
  · rw [V_xwon hO hX, sc_le_sc]; omega
  · simp only [Bool.not_eq_true] at hX
    by_cases hD : checkDraw b
    · rw [V_draw hO hX hD, sc_le_sc]; omega
    · simp only [Bool.not_eq_true] at hD
      have hpos := countEmpty_pos_of_not_draw hW hD
      have hne : availableMoves b ≠ [] := avail_ne_nil_of_countEmpty_pos hpos
      match fuel, hf with
      | 0, hf => omega
      | fl + 1, hf =>
        cases t
        · rw [V_succ_min hO hX hD]
          apply (foldMin_le_iff _ _).mpr
          right
          match havail : availableMoves b, hne with
          | m :: rest, _ =>
            have hm : m ∈ availableMoves b := by
              rw [havail]; exact List.mem_cons_self _ _
            refine ⟨m, List.mem_cons_self _ _, ?_⟩
            have hce := countEmpty_set hW hm Mark.X
            calc V fl (b.set m (some Mark.X)) (d + 1) true
                ≤ sc (10 - ((d : ℤ) + 1)) := by
                  have := V_le_ub fl (b.set m (some Mark.X)) (d + 1) true
                    (by rw [length_set_board]; exact hW) (by omega) (by omega)
                  simpa using this
              _ ≤ sc (9 - (d : ℤ)) := by rw [sc_le_sc]; omega
        · rw [V_succ_max hO hX hD]
          apply (foldMax_le_iff _ _).mpr
          refine ⟨bot_le, ?_⟩
          intro m hm
          have hce := countEmpty_set hW hm Mark.O
          calc V fl (b.set m (some Mark.O)) (d + 1) false
              ≤ sc (10 - ((d : ℤ) + 1)) := by
                have := V_le_ub fl (b.set m (some Mark.O)) (d + 1) false
                  (by rw [length_set_board]; exact hW) (by omega) (by omega)
                simpa using this
            _ ≤ sc (9 - (d : ℤ)) := by rw [sc_le_sc]; omega

/-- When the bot moves on an in-progress, non-empty board whose value is at
least a draw for it, the chosen move is available and leads to a position
whose value is still at least a draw for the bot. -/
theorem botPlayer_preserves_nonneg (r : Fin 4) (b : Board)
    (hW : b.length = 9) (hO : hasWon (some Mark.O) b = false)
    (hX : hasWon (some Mark.X) b = false)
    (hpos : 0 < countEmpty b) (hne9 : countEmpty b ≠ 9)
    (hvnn : sc 0 ≤ V 9 b 0 true) :
    (botPlayer r b).toNat ∈ availableMoves b ∧
      sc 0 ≤ V 9 (b.set (botPlayer r b).toNat (some Mark.O)) 0 false := by
  have hlen : (availableMoves b).length = countEmpty b := rfl
  have hne : availableMoves b ≠ [] := avail_ne_nil_of_countEmpty_pos hpos
  obtain ⟨hmem, hofn⟩ := @botPlayer_mem r b hne
  obtain ⟨hm9, hcty⟩ := mem_availableMoves.mp hmem
  have hWc : (b.set (botPlayer r b).toNat (some Mark.O)).length = 9 := by
    rw [length_set_board]; exact hW
  have hceres := countEmpty_set hW hmem Mark.O
  refine ⟨hmem, ?_⟩
  by_cases h1 : (availableMoves b).length = 1
  · -- only one empty cell: the bot fills the board
    have hd' : checkDraw (b.set (botPlayer r b).toNat (some Mark.O)) = true := by
      apply checkDraw_true_of_countEmpty_zero hWc
      omega
    by_cases hO' : hasWon (some Mark.O) (b.set (botPlayer r b).toNat (some Mark.O))
    · rw [V_owon hO', sc_le_sc]; norm_num
    · simp only [Bool.not_eq_true] at hO'
      have hX' : hasWon (some Mark.X) (b.set (botPlayer r b).toNat (some Mark.O)) = false := by
        rw [hasWon_set_other hW hm9 hcty (by decide)]; exact hX
      rw [V_draw hO' hX' hd']
  · -- search branch: the bot maximizes the value over the available moves
    have h0 : (availableMoves b).length ≠ 0 := by omega
    have h9 : (availableMoves b).length ≠ 9 := by omega
    have harg := @botPlayer_argmax r b hW h0 h9 h1
    obtain ⟨fl, hfl⟩ : ∃ fl, countEmpty b = fl + 1 := ⟨countEmpty b - 1, by omega⟩
    have hvE : sc 0 ≤ V (countEmpty b) b 0 true := by
      rw [V_adequate (countEmpty b) 9 b 0 true hW le_rfl (countEmpty_le_nine b)]
      exact hvnn
    rw [hfl] at hvE
    have hD : checkDraw b = false := checkDraw_false_of_countEmpty_pos hW hpos
    rw [V_succ_max hO hX hD] at hvE
    rcases (le_foldMax_iff _ _).mp hvE with hbot | ⟨m, hm, hchild⟩
    · exact absurd hbot (not_sc_le_bot 0)
    · have hce := countEmpty_set hW hm Mark.O
      have hWc' : (b.set m (some Mark.O)).length = 9 := by
        rw [length_set_board]; exact hW
      have hemp9 : countEmpty b ≤ 9 := countEmpty_le_nine b
      have h2 : sc 0 ≤ V fl (b.set m (some Mark.O)) 0 false :=
        (V_nonneg_shift fl _ 1 0 false hWc' (by omega) (by omega) (by omega)).mp hchild
      rw [V_adequate fl 9 _ 0 false hWc' (by omega) (by omega)] at h2
      rw [← minimax_fullwindow_eq_V 9 _ 0 false hWc' (by
        have := countEmpty_le_nine (b.set m (some Mark.O)); omega)] at h2
      have h5 : sc 0 ≤ foldMax (fun m => minimax 9 (b.set m (some Mark.O)) 0 false ⊥ ⊤)
          (availableMoves b) ⊥ :=
        (le_foldMax_iff _ _).mpr (Or.inr ⟨m, hm, h2⟩)
      rw [← harg] at h5
      rw [minimax_fullwindow_eq_V 9 _ 0 false hWc (by
        have := countEmpty_le_nine (b.set (botPlayer r b).toNat (some Mark.O)); omega)] at h5
      exact h5

/-- Against a bot playing from a position at least drawn for it, the player can
never reach a win: the game predicate `xBeatsBot` fails for every horizon. -/
theorem xBeatsBot_eq_false :
    ∀ (fuel : Nat) (rands : Nat → Fin 4) (k : Nat) (b : Board),
      b.length = 9 → hasWon (some Mark.O) b = false →
      hasWon (some Mark.X) b = false → sc 0 ≤ V 9 b 0 false →
      xBeatsBot rands k fuel b = false := by
  intro fuel
  induction fuel with
  | zero => intro rands k b _ _ _ _; rfl
  | succ fl ih =>
    intro rands k b hW hO hX hvnn
    rw [xBeatsBot]
    rw [List.any_eq_false]
    intro m hm
    obtain ⟨hm9, hcty⟩ := mem_availableMoves.mp hm
    have hWb' : (b.set m (some Mark.X)).length = 9 := by
      rw [length_set_board]; exact hW
    have hce := countEmpty_set hW hm Mark.X
    have hpos : 0 < countEmpty b := by
      have : m ∈ availableMoves b := hm
      have : availableMoves b ≠ [] := fun hnil => by rw [hnil] at this; cases this
      have := List.length_pos.mpr this
      omega
    have hemp9 : countEmpty b ≤ 9 := countEmpty_le_nine b
    have hO' : hasWon (some Mark.O) (b.set m (some Mark.X)) = false := by
      rw [hasWon_set_other hW hm9 hcty (by decide)]; exact hO
    -- the value after any player move is still at least a draw for the bot
    have hvE : sc 0 ≤ V (countEmpty b) b 0 false := by
      rw [V_adequate (countEmpty b) 9 b 0 false hW le_rfl hemp9]
      exact hvnn
    obtain ⟨fl', hfl'⟩ : ∃ fl', countEmpty b = fl' + 1 := ⟨countEmpty b - 1, by omega⟩
    rw [hfl'] at hvE
    have hD : checkDraw b = false := checkDraw_false_of_countEmpty_pos hW hpos
    rw [V_succ_min hO hX hD] at hvE
    have hchild : sc 0 ≤ V fl' (b.set m (some Mark.X)) 1 true :=
      ((le_foldMin_iff _ _).mp hvE).2 m hm
    have hX' : hasWon (some Mark.X) (b.set m (some Mark.X)) = false := by
      by_contra hcon
      simp only [Bool.not_eq_false] at hcon
      rw [V_xwon hO' hcon, sc_le_sc] at hchild
      omega
    simp only [hX', Bool.false_eq_true, if_false]
    by_cases hD' : checkDraw (b.set m (some Mark.X))
    · simp [hD']
    · simp only [Bool.not_eq_true] at hD'
      simp only [hD', Bool.false_eq_true, if_false]
      have hpos' : 0 < countEmpty (b.set m (some Mark.X)) :=
        countEmpty_pos_of_not_draw hWb' hD'
      have hne' : availableMoves (b.set m (some Mark.X)) ≠ [] :=
        avail_ne_nil_of_countEmpty_pos hpos'
      obtain ⟨hmem', hofn'⟩ := @botPlayer_mem (rands k) (b.set m (some Mark.X)) hne'
      have hbm : botPlayer (rands k) (b.set m (some Mark.X)) ≠ -1 := by
        have hge : (0 : Int) ≤ botPlayer (rands k) (b.set m (some Mark.X)) := by
          rw [hofn']
          exact Int.ofNat_nonneg _
        omega
      rw [if_neg hbm]
      obtain ⟨hres9, hcty'⟩ := mem_availableMoves.mp hmem'
      have hce' := countEmpty_set hWb' hmem' Mark.O
      have hWb'' : ((b.set m (some Mark.X)).set
          (botPlayer (rands k) (b.set m (some Mark.X))).toNat (some Mark.O)).length = 9 := by
        rw [length_set_board]; exact hWb'
      have hX'' : hasWon (some Mark.X) ((b.set m (some Mark.X)).set
          (botPlayer (rands k) (b.set m (some Mark.X))).toNat (some Mark.O)) = false := by
        rw [hasWon_set_other hWb' hres9 hcty' (by decide)]; exact hX'
      by_cases hO'' : hasWon (some Mark.O) ((b.set m (some Mark.X)).set
          (botPlayer (rands k) (b.set m (some Mark.X))).toNat (some Mark.O))
      · simp [hO'']
      · simp only [Bool.not_eq_true] at hO''
        simp only [hO'', Bool.false_eq_true, if_false]
        by_cases hD'' : checkDraw ((b.set m (some Mark.X)).set
            (botPlayer (rands k) (b.set m (some Mark.X))).toNat (some Mark.O))
        · simp [hD'']
        · simp only [Bool.not_eq_true] at hD''
          simp only [hD'', Bool.false_eq_true, if_false]
          have hshift : sc 0 ≤ V fl' (b.set m (some Mark.X)) 0 true :=
            (V_nonneg_shift fl' _ 1 0 true hWb' (by omega) (by omega) (by omega)).mp hchild
          have hvb' : sc 0 ≤ V 9 (b.set m (some Mark.X)) 0 true := by
            rw [← V_adequate fl' 9 _ 0 true hWb' (by omega) (by omega)]
            exact hshift
          obtain ⟨-, hv''⟩ := botPlayer_preserves_nonneg (rands k) (b.set m (some Mark.X))
            hWb' hO' hX' hpos' (by omega) hvb'
          rw [ih rands (k + 1) _ hWb'' hO'' hX'' hv'']
          simp

/-! ## The empty board is survivable for the bot -/

set_option maxHeartbeats 4000000 in
/-- Game-tree check: after the opening `X` at 4 and the bot's reply at 0,
the player cannot force a win. -/
theorem surv7_m4 : survives 7 false ((emptyBoard.set 4 (some Mark.X)).set 0 (some Mark.O)) = true := by
  decide

/-- After the opening `X` at 4 the bot has a surviving reply (cell 0). -/
theorem surv8_m4 : survives 8 true (emptyBoard.set 4 (some Mark.X)) = true := by
  show (((orderedMoves (emptyBoard.set 4 (some Mark.X))).any fun o =>
      let b' := (emptyBoard.set 4 (some Mark.X)).set o (some Mark.O)
      if wonAt (some Mark.O) b' o then true else survives 7 false b') = true)
  rw [List.any_eq_true]
  refine ⟨0, by decide, ?_⟩
  show (if wonAt (some Mark.O) ((emptyBoard.set 4 (some Mark.X)).set 0 (some Mark.O)) 0
      then true else survives 7 false ((emptyBoard.set 4 (some Mark.X)).set 0 (some Mark.O))) = true
  rw [if_neg (by decide)]
  exact surv7_m4

set_option maxHeartbeats 4000000 in
/-- Game-tree check: after the opening `X` at 0 and the bot's reply at 4,
the player cannot force a win. -/
theorem surv7_m0 : survives 7 false ((emptyBoard.set 0 (some Mark.X)).set 4 (some Mark.O)) = true := by
  decide

/-- After the opening `X` at 0 the bot has a surviving reply (cell 4). -/
theorem surv8_m0 : survives 8 true (emptyBoard.set 0 (some Mark.X)) = true := by
  show (((orderedMoves (emptyBoard.set 0 (some Mark.X))).any fun o =>
      let b' := (emptyBoard.set 0 (some Mark.X)).set o (some Mark.O)
      if wonAt (some Mark.O) b' o then true else survives 7 false b') = true)
  rw [List.any_eq_true]
  refine ⟨4, by decide, ?_⟩
  show (if wonAt (some Mark.O) ((emptyBoard.set 0 (some Mark.X)).set 4 (some Mark.O)) 4
      then true else survives 7 false ((emptyBoard.set 0 (some Mark.X)).set 4 (some Mark.O))) = true
  rw [if_neg (by decide)]
  exact surv7_m0

set_option maxHeartbeats 4000000 in
/-- Game-tree check: after the opening `X` at 2 and the bot's reply at 4,
the player cannot force a win. -/
theorem surv7_m2 : survives 7 false ((emptyBoard.set 2 (some Mark.X)).set 4 (some Mark.O)) = true := by
  decide

/-- After the opening `X` at 2 the bot has a surviving reply (cell 4). -/
theorem surv8_m2 : survives 8 true (emptyBoard.set 2 (some Mark.X)) = true := by
  show (((orderedMoves (emptyBoard.set 2 (some Mark.X))).any fun o =>
      let b' := (emptyBoard.set 2 (some Mark.X)).set o (some Mark.O)
      if wonAt (some Mark.O) b' o then true else survives 7 false b') = true)
  rw [List.any_eq_true]
  refine ⟨4, by decide, ?_⟩
  show (if wonAt (some Mark.O) ((emptyBoard.set 2 (some Mark.X)).set 4 (some Mark.O)) 4
      then true else survives 7 false ((emptyBoard.set 2 (some Mark.X)).set 4 (some Mark.O))) = true
  rw [if_neg (by decide)]
  exact surv7_m2

set_option maxHeartbeats 4000000 in
/-- Game-tree check: after the opening `X` at 6 and the bot's reply at 4,
the player cannot force a win. -/
theorem surv7_m6 : survives 7 false ((emptyBoard.set 6 (some Mark.X)).set 4 (some Mark.O)) = true := by
  decide

/-- After the opening `X` at 6 the bot has a surviving reply (cell 4). -/
theorem surv8_m6 : survives 8 true (emptyBoard.set 6 (some Mark.X)) = true := by
  show (((orderedMoves (emptyBoard.set 6 (some Mark.X))).any fun o =>
      let b' := (emptyBoard.set 6 (some Mark.X)).set o (some Mark.O)
      if wonAt (some Mark.O) b' o then true else survives 7 false b') = true)
  rw [List.any_eq_true]
  refine ⟨4, by decide, ?_⟩
  show (if wonAt (some Mark.O) ((emptyBoard.set 6 (some Mark.X)).set 4 (some Mark.O)) 4
      then true else survives 7 false ((emptyBoard.set 6 (some Mark.X)).set 4 (some Mark.O))) = true
  rw [if_neg (by decide)]
  exact surv7_m6

set_option maxHeartbeats 4000000 in
/-- Game-tree check: after the opening `X` at 8 and the bot's reply at 4,
the player cannot force a win. -/
theorem surv7_m8 : survives 7 false ((emptyBoard.set 8 (some Mark.X)).set 4 (some Mark.O)) = true := by
  decide

/-- After the opening `X` at 8 the bot has a surviving reply (cell 4). -/
theorem surv8_m8 : survives 8 true (emptyBoard.set 8 (some Mark.X)) = true := by
  show (((orderedMoves (emptyBoard.set 8 (some Mark.X))).any fun o =>
      let b' := (emptyBoard.set 8 (some Mark.X)).set o (some Mark.O)
      if wonAt (some Mark.O) b' o then true else survives 7 false b') = true)
  rw [List.any_eq_true]
  refine ⟨4, by decide, ?_⟩
  show (if wonAt (some Mark.O) ((emptyBoard.set 8 (some Mark.X)).set 4 (some Mark.O)) 4
      then true else survives 7 false ((emptyBoard.set 8 (some Mark.X)).set 4 (some Mark.O))) = true
  rw [if_neg (by decide)]
  exact surv7_m8

set_option maxHeartbeats 4000000 in
/-- Game-tree check: after the opening `X` at 1 and the bot's reply at 4,
the player cannot force a win. -/
theorem surv7_m1 : survives 7 false ((emptyBoard.set 1 (some Mark.X)).set 4 (some Mark.O)) = true := by
  decide

/-- After the opening `X` at 1 the bot has a surviving reply (cell 4). -/
theorem surv8_m1 : survives 8 true (emptyBoard.set 1 (some Mark.X)) = true := by
  show (((orderedMoves (emptyBoard.set 1 (some Mark.X))).any fun o =>
      let b' := (emptyBoard.set 1 (some Mark.X)).set o (some Mark.O)
      if wonAt (some Mark.O) b' o then true else survives 7 false b') = true)
  rw [List.any_eq_true]
  refine ⟨4, by decide, ?_⟩
  show (if wonAt (some Mark.O) ((emptyBoard.set 1 (some Mark.X)).set 4 (some Mark.O)) 4
      then true else survives 7 false ((emptyBoard.set 1 (some Mark.X)).set 4 (some Mark.O))) = true
  rw [if_neg (by decide)]
  exact surv7_m1

set_option maxHeartbeats 4000000 in
/-- Game-tree check: after the opening `X` at 3 and the bot's reply at 4,
the player cannot force a win. -/
theorem surv7_m3 : survives 7 false ((emptyBoard.set 3 (some Mark.X)).set 4 (some Mark.O)) = true := by
  decide

/-- After the opening `X` at 3 the bot has a surviving reply (cell 4). -/
theorem surv8_m3 : survives 8 true (emptyBoard.set 3 (some Mark.X)) = true := by
  show (((orderedMoves (emptyBoard.set 3 (some Mark.X))).any fun o =>
      let b' := (emptyBoard.set 3 (some Mark.X)).set o (some Mark.O)
      if wonAt (some Mark.O) b' o then true else survives 7 false b') = true)
  rw [List.any_eq_true]
  refine ⟨4, by decide, ?_⟩
  show (if wonAt (some Mark.O) ((emptyBoard.set 3 (some Mark.X)).set 4 (some Mark.O)) 4
      then true else survives 7 false ((emptyBoard.set 3 (some Mark.X)).set 4 (some Mark.O))) = true
  rw [if_neg (by decide)]
  exact surv7_m3

set_option maxHeartbeats 4000000 in
/-- Game-tree check: after the opening `X` at 5 and the bot's reply at 4,
the player cannot force a win. -/
theorem surv7_m5 : survives 7 false ((emptyBoard.set 5 (some Mark.X)).set 4 (some Mark.O)) = true := by
  decide

/-- After the opening `X` at 5 the bot has a surviving reply (cell 4). -/
theorem surv8_m5 : survives 8 true (emptyBoard.set 5 (some Mark.X)) = true := by
  show (((orderedMoves (emptyBoard.set 5 (some Mark.X))).any fun o =>
      let b' := (emptyBoard.set 5 (some Mark.X)).set o (some Mark.O)
      if wonAt (some Mark.O) b' o then true else survives 7 false b') = true)
  rw [List.any_eq_true]
  refine ⟨4, by decide, ?_⟩
  show (if wonAt (some Mark.O) ((emptyBoard.set 5 (some Mark.X)).set 4 (some Mark.O)) 4
      then true else survives 7 false ((emptyBoard.set 5 (some Mark.X)).set 4 (some Mark.O))) = true
  rw [if_neg (by decide)]
  exact surv7_m5

set_option maxHeartbeats 4000000 in
/-- Game-tree check: after the opening `X` at 7 and the bot's reply at 4,
the player cannot force a win. -/
theorem surv7_m7 : survives 7 false ((emptyBoard.set 7 (some Mark.X)).set 4 (some Mark.O)) = true := by
  decide

/-- After the opening `X` at 7 the bot has a surviving reply (cell 4). -/
theorem surv8_m7 : survives 8 true (emptyBoard.set 7 (some Mark.X)) = true := by
  show (((orderedMoves (emptyBoard.set 7 (some Mark.X))).any fun o =>
      let b' := (emptyBoard.set 7 (some Mark.X)).set o (some Mark.O)
      if wonAt (some Mark.O) b' o then true else survives 7 false b') = true)
  rw [List.any_eq_true]
  refine ⟨4, by decide, ?_⟩
  show (if wonAt (some Mark.O) ((emptyBoard.set 7 (some Mark.X)).set 4 (some Mark.O)) 4
      then true else survives 7 false ((emptyBoard.set 7 (some Mark.X)).set 4 (some Mark.O))) = true
  rw [if_neg (by decide)]
  exact surv7_m7

/-- Exhaustive game-tree check, split by the player's opening move: from the
empty board, whatever the player does, the bot's side has replies that never
let the player complete a line. -/
theorem survives_empty : survives 9 false emptyBoard = true := by
  show (((orderedMoves emptyBoard).all fun m =>
      let b' := emptyBoard.set m (some Mark.X)
      if wonAt (some Mark.X) b' m then false else survives 8 true b') = true)
  rw [List.all_eq_true]
  intro m hm
  have hl : orderedMoves emptyBoard = [4, 0, 2, 6, 8, 1, 3, 5, 7] := rfl
  rw [hl] at hm
  fin_cases hm
  · show (if wonAt (some Mark.X) (emptyBoard.set 4 (some Mark.X)) 4
        then false else survives 8 true (emptyBoard.set 4 (some Mark.X))) = true
    rw [if_neg (by decide)]
    exact surv8_m4
  · show (if wonAt (some Mark.X) (emptyBoard.set 0 (some Mark.X)) 0
        then false else survives 8 true (emptyBoard.set 0 (some Mark.X))) = true
    rw [if_neg (by decide)]
    exact surv8_m0
  · show (if wonAt (some Mark.X) (emptyBoard.set 2 (some Mark.X)) 2
        then false else survives 8 true (emptyBoard.set 2 (some Mark.X))) = true
    rw [if_neg (by decide)]
    exact surv8_m2
  · show (if wonAt (some Mark.X) (emptyBoard.set 6 (some Mark.X)) 6
        then false else survives 8 true (emptyBoard.set 6 (some Mark.X))) = true
    rw [if_neg (by decide)]
    exact surv8_m6
  · show (if wonAt (some Mark.X) (emptyBoard.set 8 (some Mark.X)) 8
        then false else survives 8 true (emptyBoard.set 8 (some Mark.X))) = true
    rw [if_neg (by decide)]
    exact surv8_m8
  · show (if wonAt (some Mark.X) (emptyBoard.set 1 (some Mark.X)) 1
        then false else survives 8 true (emptyBoard.set 1 (some Mark.X))) = true
    rw [if_neg (by decide)]
    exact surv8_m1
  · show (if wonAt (some Mark.X) (emptyBoard.set 3 (some Mark.X)) 3
        then false else survives 8 true (emptyBoard.set 3 (some Mark.X))) = true
    rw [if_neg (by decide)]
    exact surv8_m3
  · show (if wonAt (some Mark.X) (emptyBoard.set 5 (some Mark.X)) 5
        then false else survives 8 true (emptyBoard.set 5 (some Mark.X))) = true
    rw [if_neg (by decide)]
    exact surv8_m5
  · show (if wonAt (some Mark.X) (emptyBoard.set 7 (some Mark.X)) 7
        then false else survives 8 true (emptyBoard.set 7 (some Mark.X))) = true
    rw [if_neg (by decide)]
    exact surv8_m7

/-- The empty board, player to move, has value at least a draw for the bot. -/
theorem V_emptyBoard_nonneg : sc 0 ≤ V 9 emptyBoard 0 false :=
  (V_nonneg_iff_survives 9 emptyBoard 0 false (by decide) (by decide) (by decide)
    (by decide) (by decide)).mpr survives_empty

/-! ## The reachability invariant -/


theorem Inv_init : Inv initState := by
  refine ⟨by decide, fun _ => ⟨by decide, by decide, fun _ => ⟨by decide, ?_⟩, ?_⟩⟩
  · exact V_emptyBoard_nonneg
  · intro h
    cases h

/-- After any player move on a position at least drawn for the bot, the
position is still at least drawn for the bot. -/
theorem click_preserves_nonneg (b : Board) (i : Nat)
    (hW : b.length = 9) (hO : hasWon (some Mark.O) b = false)
    (hX : hasWon (some Mark.X) b = false) (hi : i ∈ availableMoves b)
    (hvnn : sc 0 ≤ V 9 b 0 false) :
    sc 0 ≤ V 9 (b.set i (some Mark.X)) 0 true := by
  have hpos : 0 < countEmpty b := by
    have hne : availableMoves b ≠ [] := fun hnil => by rw [hnil] at hi; cases hi
    have := List.length_pos.mpr hne
    have hlen : (availableMoves b).length = countEmpty b := rfl
    omega
  have hemp9 : countEmpty b ≤ 9 := countEmpty_le_nine b
  have hWb' : (b.set i (some Mark.X)).length = 9 := by
    rw [length_set_board]; exact hW
  have hce := countEmpty_set hW hi Mark.X
  have hvE : sc 0 ≤ V (countEmpty b) b 0 false := by
    rw [V_adequate (countEmpty b) 9 b 0 false hW le_rfl hemp9]
    exact hvnn
  obtain ⟨fl', hfl'⟩ : ∃ fl', countEmpty b = fl' + 1 := ⟨countEmpty b - 1, by omega⟩
  rw [hfl'] at hvE
  have hD : checkDraw b = false := checkDraw_false_of_countEmpty_pos hW hpos
  rw [V_succ_min hO hX hD] at hvE
  have hchild : sc 0 ≤ V fl' (b.set i (some Mark.X)) 1 true :=
    ((le_foldMin_iff _ _).mp hvE).2 i hi
  have hshift : sc 0 ≤ V fl' (b.set i (some Mark.X)) 0 true :=
    (V_nonneg_shift fl' _ 1 0 true hWb' (by omega) (by omega) (by omega)).mp hchild
  rw [← V_adequate fl' 9 _ 0 true hWb' (by omega) (by omega)]
  exact hshift

theorem Inv_step {s s' : AppState} (hInv : Inv s) (hstep : Step s s') : Inv s' := by
  obtain ⟨hlen, hplaying⟩ := hInv
  cases hstep with
  | click i hplay hturn hi9 hcty =>
    obtain ⟨hO, hX, hXt, -⟩ := hplaying hplay
    obtain ⟨hparity, hvnn⟩ := hXt hturn
    have hi : i ∈ availableMoves s.board := mem_availableMoves.mpr ⟨hi9, hcty⟩
    have hlen' : (s.board.set i (some Mark.X)).length = 9 := by
      rw [length_set_board]; exact hlen
    have hce := countEmpty_set hlen hi Mark.X
    have hO' : hasWon (some Mark.O) (s.board.set i (some Mark.X)) = false := by
      rw [hasWon_set_other hlen hi9 hcty (by decide)]; exact hO
    by_cases hwin : hasWon (some Mark.X) (s.board.set i (some Mark.X)) = true
    · refine ⟨?_, ?_⟩
      · simp only [afterMove, hwin, if_true]
        exact hlen'
      · intro hplay'
        simp only [afterMove, hwin, if_true] at hplay'
        cases hplay'
    · simp only [Bool.not_eq_true] at hwin
      by_cases hdraw : checkDraw (s.board.set i (some Mark.X)) = true
      · refine ⟨?_, ?_⟩
        · simp only [afterMove, hwin, Bool.false_eq_true, if_false, hdraw, if_true]
          exact hlen'
        · intro hplay'
          simp only [afterMove, hwin, Bool.false_eq_true, if_false, hdraw, if_true] at hplay'
          cases hplay'
      · simp only [Bool.not_eq_true] at hdraw
        simp only [afterMove, hwin, Bool.false_eq_true, if_false, hdraw]
        refine ⟨hlen', fun _ => ⟨hO', hwin, ?_, ?_⟩⟩
        · intro h
          cases h
        · intro _
          refine ⟨?_, ?_⟩
          · show countEmpty (s.board.set i (some Mark.X)) % 2 = 0
            omega
          · exact click_preserves_nonneg s.board i hlen hO hX hi hvnn
  | bot r hplay hturn hbm =>
    obtain ⟨hO, hX, -, hOt⟩ := hplaying hplay
    obtain ⟨hparity, hvnn⟩ := hOt hturn
    have hpos : 0 < countEmpty s.board := by
      by_contra hc
      push_neg at hc
      have h0 : (availableMoves s.board).length = 0 := by
        have : (availableMoves s.board).length = countEmpty s.board := rfl
        omega
      exact hbm (botPlayer_empty_eq h0)
    have hne9 : countEmpty s.board ≠ 9 := by omega
    obtain ⟨hmem, hv'⟩ := botPlayer_preserves_nonneg r s.board hlen hO hX hpos hne9 hvnn
    obtain ⟨hm9, hcty⟩ := mem_availableMoves.mp hmem
    have hlen' : (s.board.set (botPlayer r s.board).toNat (some Mark.O)).length = 9 := by
      rw [length_set_board]; exact hlen
    have hce := countEmpty_set hlen hmem Mark.O
    have hX' : hasWon (some Mark.X)
        (s.board.set (botPlayer r s.board).toNat (some Mark.O)) = false := by
      rw [hasWon_set_other hlen hm9 hcty (by decide)]; exact hX
    by_cases hwin : hasWon (some Mark.O)
        (s.board.set (botPlayer r s.board).toNat (some Mark.O)) = true
    · refine ⟨?_, ?_⟩
      · simp only [afterMove, hwin, if_true]
        exact hlen'
      · intro hplay'
        simp only [afterMove, hwin, if_true] at hplay'
        cases hplay'
    · simp only [Bool.not_eq_true] at hwin
      by_cases hdraw : checkDraw (s.board.set (botPlayer r s.board).toNat (some Mark.O)) = true
      · refine ⟨?_, ?_⟩
        · simp only [afterMove, hwin, Bool.false_eq_true, if_false, hdraw, if_true]
          exact hlen'
        · intro hplay'
          simp only [afterMove, hwin, Bool.false_eq_true, if_false, hdraw, if_true] at hplay'
          cases hplay'
      · simp only [Bool.not_eq_true] at hdraw
        simp only [afterMove, hwin, Bool.false_eq_true, if_false, hdraw]
        refine ⟨hlen', fun _ => ⟨hwin, hX', ?_, ?_⟩⟩
        · intro _
          refine ⟨?_, hv'⟩
          show countEmpty (s.board.set (botPlayer r s.board).toNat (some Mark.O)) % 2 = 1
          omega
        · intro h
          cases h
  | reset => exact Inv_init

/-- Every reachable component state satisfies the invariant. -/
theorem Inv_reachable {s : AppState} (h : Reachable s) : Inv s := by
  induction h with
  | init => exact Inv_init
  | step _ hstep ih => exact Inv_step ih hstep

/-! ## Claim theorems -/

/-- C2: for every 9-cell board, depth, and maximizing flag, the alpha-beta
pruned `minimax` called at the full window `(-Infinity, Infinity)` returns
exactly the same score as the unpruned recursion (`minimaxNP`, the same code
with the pruning `break` removed); pruning never changes the returned value. -/
theorem claim_C2_pruning_sound (fuel : Nat) (b : Board) (d : Nat) (t : Bool)
    (hW : b.length = 9) (hf : countEmpty b ≤ fuel) :
    minimax fuel b d t ⊥ ⊤ = minimaxNP fuel b d t ⊥ ⊤ :=
  minimax_fullwindow_eq_V fuel b d t hW hf

/-- Witness for C2 at a concrete mid-game board. -/
theorem claim_C2_pruning_sound_witness :
    ([some Mark.X, some Mark.O, some Mark.X,
      some Mark.O, some Mark.X, some Mark.O,
      none, none, none] : Board).length = 9 ∧
    minimax 9 [some Mark.X, some Mark.O, some Mark.X,
      some Mark.O, some Mark.X, some Mark.O, none, none, none] 0 true ⊥ ⊤ =
    minimaxNP 9 [some Mark.X, some Mark.O, some Mark.X,
      some Mark.O, some Mark.X, some Mark.O, none, none, none] 0 true ⊥ ⊤ :=
  ⟨by decide,
   claim_C2_pruning_sound 9 _ 0 true (by decide) (by decide)⟩

/-- C3: the evaluation function returns `10 − depth` when the bot (`O`) has a
completed line, `depth − 10` when the player (`X`) has a completed line and
`O` does not, and `0` when the board is full with no line. -/
theorem claim_C3_terminal_scores (fuel : Nat) (b : Board) (d : Nat) (t : Bool)
    (a bt : Score) :
    (hasWon (some Mark.O) b = true → minimax fuel b d t a bt = sc (10 - (d : ℤ))) ∧
    (hasWon (some Mark.O) b = false → hasWon (some Mark.X) b = true →
      minimax fuel b d t a bt = sc ((d : ℤ) - 10)) ∧
    (hasWon (some Mark.O) b = false → hasWon (some Mark.X) b = false →
      checkDraw b = true → minimax fuel b d t a bt = sc 0) :=
  ⟨fun hO => minimax_owon hO,
   fun hO hX => minimax_xwon hO hX,
   fun hO hX hD => minimax_draw hO hX hD⟩

/-- Witness for C3 at three concrete terminal boards. -/
theorem claim_C3_terminal_scores_witness :
    minimax 9 [some Mark.O, some Mark.O, some Mark.O,
      some Mark.X, some Mark.X, none, none, some Mark.X, none] 3 true ⊥ ⊤ = sc 7 ∧
    minimax 9 [some Mark.X, some Mark.X, some Mark.X,
      some Mark.O, some Mark.O, none, none, none, none] 3 false ⊥ ⊤ = sc (-7) ∧
    minimax 9 [some Mark.X, some Mark.O, some Mark.X,
      some Mark.X, some Mark.O, some Mark.O,
      some Mark.O, some Mark.X, some Mark.X] 2 true ⊥ ⊤ = sc 0 := by
  refine ⟨?_, ?_, ?_⟩
  · have h := (claim_C3_terminal_scores 9 [some Mark.O, some Mark.O, some Mark.O,
      some Mark.X, some Mark.X, none, none, some Mark.X, none] 3 true ⊥ ⊤).1 (by decide)
    rw [h]
    decide
  · have h := (claim_C3_terminal_scores 9 [some Mark.X, some Mark.X, some Mark.X,
      some Mark.O, some Mark.O, none, none, none, none] 3 false ⊥ ⊤).2.1
      (by decide) (by decide)
    rw [h]
    decide
  · have h := (claim_C3_terminal_scores 9 [some Mark.X, some Mark.O, some Mark.X,
      some Mark.X, some Mark.O, some Mark.O,
      some Mark.O, some Mark.X, some Mark.X] 2 true ⊥ ⊤).2.2
      (by decide) (by decide) (by decide)
    rw [h]

/-- C4: on a 9-cell board `botPlayer` returns `-1` exactly when no cell is
empty, and on a board with an empty cell it returns the index of an empty
cell (as a nonnegative integer below 9). -/
theorem claim_C4_result_valid (r : Fin 4) (b : Board) (hW : b.length = 9) :
    (botPlayer r b = -1 ↔ checkDraw b = true) ∧
    (checkDraw b = false →
      (botPlayer r b).toNat < 9 ∧ cellAt b (botPlayer r b).toNat = none ∧
      botPlayer r b = Int.ofNat ((botPlayer r b).toNat)) := by
  constructor
  · constructor
    · intro hneg
      by_contra hdraw
      have hD : checkDraw b = false := by
        cases h : checkDraw b
        · rfl
        · exact absurd h hdraw
      have hne : availableMoves b ≠ [] := (avail_ne_nil_iff_not_draw hW).mpr hD
      obtain ⟨-, hofn⟩ := @botPlayer_mem r b hne
      have h0 : (0 : Int) ≤ -1 := by
        rw [← hneg, hofn]
        exact Int.ofNat_nonneg _
      norm_num at h0
    · intro hdraw
      have hnil : availableMoves b = [] := by
        by_contra hne
        rw [(avail_ne_nil_iff_not_draw hW).mp hne] at hdraw
        cases hdraw
      exact botPlayer_empty_eq (by rw [hnil]; rfl)
  · intro hdraw
    have hne : availableMoves b ≠ [] := (avail_ne_nil_iff_not_draw hW).mpr hdraw
    obtain ⟨hmem, hofn⟩ := @botPlayer_mem r b hne
    obtain ⟨hlt, hcty⟩ := mem_availableMoves.mp hmem
    exact ⟨hlt, hcty, hofn⟩

/-- Witness for C4 at a full board (sentinel) and a one-mark board (valid move). -/
theorem claim_C4_result_valid_witness :
    (botPlayer 2 [some Mark.X, some Mark.O, some Mark.X,
      some Mark.X, some Mark.O, some Mark.O,
      some Mark.O, some Mark.X, some Mark.X] = -1) ∧
    cellAt [some Mark.X, none, none, none, none, none, none, none, none]
      (botPlayer 2 [some Mark.X, none, none, none, none, none, none, none, none]).toNat
      = none := by
  constructor
  · exact (claim_C4_result_valid 2 _ (by decide)).1.mpr (by decide)
  · exact ((claim_C4_result_valid 2 _ (by decide)).2 (by decide)).2.1

/-- C6: on the empty board `botPlayer` returns a corner index — one of
`{0, 2, 6, 8}` — for every outcome of the internal random draw. -/
theorem claim_C6_opening_corner (r : Fin 4) :
    botPlayer r emptyBoard ∈ ([0, 2, 6, 8] : List Int) := by
  fin_cases r <;> decide

/-- C9: on any 9-cell board with at least one occupied cell, `botPlayer` is a
deterministic function of the board: the random draw cannot influence the
returned index. -/
theorem claim_C9_deterministic_when_nonempty (b : Board) (r r' : Fin 4)
    (hW : b.length = 9) (hocc : ∃ i, i < 9 ∧ cellAt b i ≠ none) :
    botPlayer r b = botPlayer r' b := by
  have h9 : (availableMoves b).length ≠ 9 := by
    intro h9
    obtain ⟨i, hi9, hocc⟩ := hocc
    exact hocc (avail_eq_range_of_len_nine h9 i hi9)
  by_cases h0 : (availableMoves b).length = 0
  · rw [botPlayer_empty_eq h0, botPlayer_empty_eq h0]
  · by_cases h1 : (availableMoves b).length = 1
    · rw [botPlayer_one_eq h0 h9 h1, botPlayer_one_eq h0 h9 h1]
    · rw [botPlayer_general_eq h0 h9 h1, botPlayer_general_eq h0 h9 h1]

/-- Witness for C9: after one player mark the bot's move ignores the draw. -/
theorem claim_C9_deterministic_when_nonempty_witness :
    botPlayer 1 [some Mark.X, none, none, none, none, none, none, none, none] =
    botPlayer 3 [some Mark.X, none, none, none, none, none, none, none, none] :=
  claim_C9_deterministic_when_nonempty _ 1 3 (by decide) ⟨0, by omega, by decide⟩

/-- C7: `checkWin` returns a line exactly when some `WIN_CONDITIONS` triple is
uniformly marked, the derived status classifies wins and full no-line boards
correctly, and the spec's two example boards classify as stated. -/
theorem claim_C7_status_classification :
    (∀ (p : Cell) (b : Board), (checkWin p b).isSome = true ↔
      ∃ c ∈ WIN_CONDITIONS,
        cellAt b c.1 = p ∧ cellAt b c.2.1 = p ∧ cellAt b c.2.2 = p) ∧
    (∀ b : Board, hasWon (some Mark.X) b = true →
      deriveStatus b = GameStatus.won Mark.X) ∧
    (∀ b : Board, hasWon (some Mark.X) b = false → hasWon (some Mark.O) b = true →
      deriveStatus b = GameStatus.won Mark.O) ∧
    (∀ b : Board, hasWon (some Mark.X) b = false → hasWon (some Mark.O) b = false →
      checkDraw b = true → deriveStatus b = GameStatus.draw) ∧
    checkWin (some Mark.X) [some Mark.X, some Mark.X, some Mark.X,
      some Mark.O, some Mark.O, none, none, none, none] = some (0, 1, 2) ∧
    deriveStatus [some Mark.X, some Mark.X, some Mark.X,
      some Mark.O, some Mark.O, none, none, none, none] = GameStatus.won Mark.X ∧
    deriveStatus [some Mark.X, some Mark.O, some Mark.X,
      some Mark.X, some Mark.O, some Mark.O,
      some Mark.O, some Mark.X, some Mark.X] = GameStatus.draw := by
  refine ⟨fun p b => hasWon_iff, ?_, ?_, ?_, by decide, by decide, by decide⟩
  · intro b h
    simp [deriveStatus, h]
  · intro b hX hO
    simp [deriveStatus, hX, hO]
  · intro b hX hO hD
    simp [deriveStatus, hX, hO, hD]

/-- Witness for C7: a diagonal `O` win is detected via the line table. -/
theorem claim_C7_status_classification_witness :
    (checkWin (some Mark.O) [some Mark.O, none, none, none, some Mark.O,
      none, none, none, some Mark.O]).isSome = true :=
  (claim_C7_status_classification.1 _ _).mpr ⟨(0, 4, 8), by decide, by decide⟩

theorem afterMove_board (mk : Mark) (b : Board) (next : Bool) :
    (afterMove mk b next).board = b := by
  unfold afterMove
  split_ifs <;> rfl

/-- C8: every transition of the component either resets the board to all-empty
or is a move: it fills exactly one previously empty cell with a mark, leaves
the other cells unchanged, never overwrites a filled cell, and never produces
the all-empty board. -/
theorem claim_C8_moves_fill_one_cell (s s' : AppState) (hW : s.board.length = 9)
    (hstep : Step s s') :
    s'.board = List.replicate 9 none ∨
    ∃ i mk, i < 9 ∧ cellAt s.board i = none ∧
      s'.board = s.board.set i (some mk) ∧
      cellAt s'.board i = some mk ∧
      (∀ j, j ≠ i → cellAt s'.board j = cellAt s.board j) ∧
      ¬ ∀ j, j < 9 → cellAt s'.board j = none := by
  cases hstep with
  | click i hplay hturn hi9 hcty =>
    right
    have hilen : i < s.board.length := by omega
    refine ⟨i, Mark.X, hi9, hcty, afterMove_board _ _ _, ?_, ?_, ?_⟩
    · rw [afterMove_board, cellAt_set hilen, if_pos rfl]
    · intro j hj
      rw [afterMove_board, cellAt_set hilen, if_neg (fun h => hj h.symm)]
    · intro hall
      have := hall i hi9
      rw [afterMove_board, cellAt_set hilen, if_pos rfl] at this
      cases this
  | bot r hplay hturn hbm =>
    right
    have hne : availableMoves s.board ≠ [] := by
      intro hnil
      exact hbm (botPlayer_empty_eq (by rw [hnil]; rfl))
    obtain ⟨hmem, -⟩ := @botPlayer_mem r s.board hne
    obtain ⟨hm9, hcty⟩ := mem_availableMoves.mp hmem
    have hilen : (botPlayer r s.board).toNat < s.board.length := by omega
    refine ⟨(botPlayer r s.board).toNat, Mark.O, hm9, hcty, afterMove_board _ _ _, ?_, ?_, ?_⟩
    · rw [afterMove_board, cellAt_set hilen, if_pos rfl]
    · intro j hj
      rw [afterMove_board, cellAt_set hilen, if_neg (fun h => hj h.symm)]
    · intro hall
      have := hall (botPlayer r s.board).toNat hm9
      rw [afterMove_board, cellAt_set hilen, if_pos rfl] at this
      cases this
  | reset => left; rfl

/-- Witness for C8: the first click on the empty board fills exactly cell 0. -/
theorem claim_C8_moves_fill_one_cell_witness :
    (afterMove Mark.X (initState.board.set 0 (some Mark.X)) false).board =
      List.replicate 9 none ∨
    ∃ i mk, i < 9 ∧ cellAt initState.board i = none ∧
      (afterMove Mark.X (initState.board.set 0 (some Mark.X)) false).board =
        initState.board.set i (some mk) ∧
      cellAt (afterMove Mark.X (initState.board.set 0 (some Mark.X)) false).board i
        = some mk ∧
      (∀ j, j ≠ i →
        cellAt (afterMove Mark.X (initState.board.set 0 (some Mark.X)) false).board j =
        cellAt initState.board j) ∧
      ¬ ∀ j, j < 9 →
        cellAt (afterMove Mark.X (initState.board.set 0 (some Mark.X)) false).board j
          = none :=
  claim_C8_moves_fill_one_cell initState _ (by decide)
    (Step.click initState 0 rfl rfl (by omega) (by decide))

/-- C10 (modelled from the spec, §4.1): the heuristic selector applies its four
rules in fixed order — complete a two-`O` line, else take the center, else
block the first two-`X` line in table order, else take the first empty cell —
and `lineGap` finds exactly the empty completing cell of a line holding two of
`p`'s marks. -/
theorem claim_C10_heuristic_rule_order (b : Board) :
    (∀ i, firstGap (some Mark.O) b = some i → heuristicMove b = Int.ofNat i) ∧
    (firstGap (some Mark.O) b = none → cellAt b 4 = none → heuristicMove b = 4) ∧
    (firstGap (some Mark.O) b = none → cellAt b 4 ≠ none →
      ∀ i, firstGap (some Mark.X) b = some i → heuristicMove b = Int.ofNat i) ∧
    (firstGap (some Mark.O) b = none → cellAt b 4 ≠ none →
      firstGap (some Mark.X) b = none →
      ∀ m rest, availableMoves b = m :: rest → heuristicMove b = Int.ofNat m) ∧
    (firstGap (some Mark.O) b = none → cellAt b 4 ≠ none →
      firstGap (some Mark.X) b = none → availableMoves b = [] →
      heuristicMove b = -1) ∧
    (∀ (p : Cell) (c : Nat × Nat × Nat) (i : Nat), lineGap p b c = some i →
      cellAt b i = none ∧
      ((i = c.2.2 ∧ cellAt b c.1 = p ∧ cellAt b c.2.1 = p) ∨
       (i = c.2.1 ∧ cellAt b c.1 = p ∧ cellAt b c.2.2 = p) ∨
       (i = c.1 ∧ cellAt b c.2.1 = p ∧ cellAt b c.2.2 = p))) ∧
    (∀ p : Cell, firstGap p b = none ↔ ∀ c ∈ WIN_CONDITIONS, lineGap p b c = none) := by
  refine ⟨?_, ?_, ?_, ?_, ?_, ?_, ?_⟩
  · intro i h
    simp [heuristicMove, h]
  · intro h hc
    simp [heuristicMove, h, hc]
  · intro h hc i hx
    simp [heuristicMove, h, hc, hx]
  · intro h hc hx m rest havail
    simp [heuristicMove, h, hc, hx, havail]
  · intro h hc hx havail
    simp [heuristicMove, h, hc, hx, havail]
  · intro p c i h
    unfold lineGap at h
    split_ifs at h with h1 h2 h3
    · obtain ⟨ha, hb, hgap⟩ := h1
      cases h
      exact ⟨hgap, Or.inl ⟨rfl, ha, hb⟩⟩
    · obtain ⟨ha, hb, hgap⟩ := h2
      cases h
      exact ⟨hgap, Or.inr (Or.inl ⟨rfl, ha, hb⟩)⟩
    · obtain ⟨ha, hb, hgap⟩ := h3
      cases h
      exact ⟨hgap, Or.inr (Or.inr ⟨rfl, ha, hb⟩)⟩
  · intro p
    simp [firstGap, List.findSome?_eq_none_iff]

/-- Witness for C10: on the empty board no line holds two marks, so the
heuristic takes the center. -/
theorem claim_C10_heuristic_rule_order_witness :
    heuristicMove emptyBoard = 4 :=
  (claim_C10_heuristic_rule_order emptyBoard).2.1 (by decide) (by decide)

theorem wc_coords_lt : ∀ c ∈ WIN_CONDITIONS, c.1 < 9 ∧ c.2.1 < 9 ∧ c.2.2 < 9 := by
  decide

/-- Completing a line whose two other cells already hold `O` by playing `O` on
the empty cell `w` wins. -/
theorem complete_o_line {b : Board} (hW : b.length = 9) {c : Nat × Nat × Nat}
    (hc : c ∈ WIN_CONDITIONS) {w : Nat} (hw9 : w < 9) (hgap : cellAt b w = none)
    (h1 : c.1 = w ∨ cellAt b c.1 = some Mark.O)
    (h2 : c.2.1 = w ∨ cellAt b c.2.1 = some Mark.O)
    (h3 : c.2.2 = w ∨ cellAt b c.2.2 = some Mark.O) :
    hasWon (some Mark.O) (b.set w (some Mark.O)) = true := by
  have hwlen : w < b.length := by omega
  apply hasWon_iff.mpr
  refine ⟨c, hc, ?_, ?_, ?_⟩
  · rcases h1 with h1 | h1
    · rw [h1, cellAt_set hwlen, if_pos rfl]
    · rw [cellAt_set hwlen, if_neg (fun he => by rw [he] at hgap; rw [h1] at hgap; simp at hgap)]
      exact h1
  · rcases h2 with h2 | h2
    · rw [h2, cellAt_set hwlen, if_pos rfl]
    · rw [cellAt_set hwlen, if_neg (fun he => by rw [he] at hgap; rw [h2] at hgap; simp at hgap)]
      exact h2
  · rcases h3 with h3 | h3
    · rw [h3, cellAt_set hwlen, if_pos rfl]
    · rw [cellAt_set hwlen, if_neg (fun he => by rw [he] at hgap; rw [h3] at hgap; simp at hgap)]
      exact h3

/-- C5: on an in-progress 9-cell board on which some win line holds exactly
two bot (`O`) marks with its third cell empty, `botPlayer` returns an empty
cell whose occupation completes such a line — an immediate winning move. -/
theorem claim_C5_takes_immediate_win (r : Fin 4) (b : Board) (hW : b.length = 9)
    (hO : hasWon (some Mark.O) b = false) (hX : hasWon (some Mark.X) b = false)
    (hthreat : ∃ c ∈ WIN_CONDITIONS,
      (cellAt b c.1 = some Mark.O ∧ cellAt b c.2.1 = some Mark.O ∧ cellAt b c.2.2 = none) ∨
      (cellAt b c.1 = some Mark.O ∧ cellAt b c.2.2 = some Mark.O ∧ cellAt b c.2.1 = none) ∨
      (cellAt b c.2.1 = some Mark.O ∧ cellAt b c.2.2 = some Mark.O ∧ cellAt b c.1 = none)) :
    cellAt b (botPlayer r b).toNat = none ∧
    hasWon (some Mark.O) (b.set (botPlayer r b).toNat (some Mark.O)) = true := by
  obtain ⟨w, hwmem, hwwin⟩ : ∃ w ∈ availableMoves b,
      hasWon (some Mark.O) (b.set w (some Mark.O)) = true := by
    obtain ⟨c, hc, hcase⟩ := hthreat
    obtain ⟨hc1, hc2, hc3⟩ := wc_coords_lt c hc
    rcases hcase with ⟨ha, hb', hgap⟩ | ⟨ha, hb', hgap⟩ | ⟨ha, hb', hgap⟩
    · exact ⟨c.2.2, mem_availableMoves.mpr ⟨hc3, hgap⟩,
        complete_o_line hW hc hc3 hgap (Or.inr ha) (Or.inr hb') (Or.inl rfl)⟩
    · exact ⟨c.2.1, mem_availableMoves.mpr ⟨hc2, hgap⟩,
        complete_o_line hW hc hc2 hgap (Or.inr ha) (Or.inl rfl) (Or.inr hb')⟩
    · exact ⟨c.1, mem_availableMoves.mpr ⟨hc1, hgap⟩,
        complete_o_line hW hc hc1 hgap (Or.inl rfl) (Or.inr ha) (Or.inr hb')⟩
  have h9 : (availableMoves b).length ≠ 9 := by
    intro h9
    have hall := avail_eq_range_of_len_nine h9
    obtain ⟨c, hc, hcase⟩ := hthreat
    obtain ⟨hc1, hc2, hc3⟩ := wc_coords_lt c hc
    rcases hcase with ⟨ha, -, -⟩ | ⟨ha, -, -⟩ | ⟨ha, -, -⟩
    · rw [hall c.1 hc1] at ha; cases ha
    · rw [hall c.1 hc1] at ha; cases ha
    · rw [hall c.2.1 hc2] at ha; cases ha
  have h0 : (availableMoves b).length ≠ 0 := by
    intro h0
    rw [List.length_eq_zero.mp h0] at hwmem
    cases hwmem
  by_cases h1 : (availableMoves b).length = 1
  · rw [botPlayer_one_eq h0 h9 h1, toNat_ofNat_eq]
    match havail : availableMoves b, h1 with
    | [m], _ =>
      have hwm : w = m := by
        rw [havail] at hwmem
        simpa using hwmem
      have hm : m ∈ availableMoves b := by
        rw [havail]; exact List.mem_singleton_self m
      obtain ⟨-, hcty⟩ := mem_availableMoves.mp hm
      rw [hwm] at hwwin
      exact ⟨hcty, hwwin⟩
  · obtain ⟨hmem, -⟩ := @botPlayer_mem r b
      (fun hnil => h0 (by rw [hnil]; rfl))
    obtain ⟨hm9, hcty⟩ := mem_availableMoves.mp hmem
    refine ⟨hcty, ?_⟩
    have harg := @botPlayer_argmax r b hW h0 h9 h1
    have hWw : (b.set w (some Mark.O)).length = 9 := by
      rw [length_set_board]; exact hW
    have hscw : minimax 9 (b.set w (some Mark.O)) 0 false ⊥ ⊤ = sc 10 := by
      rw [minimax_owon hwwin]
      norm_num
    have hub : ∀ m ∈ availableMoves b,
        minimax 9 (b.set m (some Mark.O)) 0 false ⊥ ⊤ ≤ sc 10 := by
      intro m hm
      have hWm : (b.set m (some Mark.O)).length = 9 := by
        rw [length_set_board]; exact hW
      have hem := countEmpty_le_nine (b.set m (some Mark.O))
      rw [minimax_fullwindow_eq_V 9 _ 0 false hWm (by omega)]
      have := V_le_ub 9 (b.set m (some Mark.O)) 0 false hWm (by omega) (by omega)
      simpa using this
    have hfold : foldMax (fun m => minimax 9 (b.set m (some Mark.O)) 0 false ⊥ ⊤)
        (availableMoves b) ⊥ = sc 10 := by
      apply le_antisymm
      · exact (foldMax_le_iff _ _).mpr ⟨bot_le, hub⟩
      · exact (le_foldMax_iff _ _).mpr (Or.inr ⟨w, hwmem, le_of_eq hscw.symm⟩)
    by_contra hres
    simp only [Bool.not_eq_true] at hres
    have hWres : (b.set (botPlayer r b).toNat (some Mark.O)).length = 9 := by
      rw [length_set_board]; exact hW
    have hemres := countEmpty_le_nine (b.set (botPlayer r b).toNat (some Mark.O))
    have hle : minimax 9 (b.set (botPlayer r b).toNat (some Mark.O)) 0 false ⊥ ⊤
        ≤ sc 9 := by
      rw [minimax_fullwindow_eq_V 9 _ 0 false hWres (by omega)]
      have := @V_le_nine_of_no_owin 9 _ 0 false hWres (by omega) (by omega) hres
      simpa using this
    rw [harg, hfold] at hle
    rw [sc_le_sc] at hle
    omega

/-- Witness for C5: with `O` on cells 0 and 1 and cell 2 empty, the bot plays
the winning completion. -/
theorem claim_C5_takes_immediate_win_witness :
    cellAt [some Mark.O, some Mark.O, none,
      some Mark.X, some Mark.X, none, none, none, some Mark.X]
      (botPlayer 0 [some Mark.O, some Mark.O, none,
        some Mark.X, some Mark.X, none, none, none, some Mark.X]).toNat = none ∧
    hasWon (some Mark.O)
      (([some Mark.O, some Mark.O, none,
        some Mark.X, some Mark.X, none, none, none, some Mark.X] : Board).set
        (botPlayer 0 [some Mark.O, some Mark.O, none,
          some Mark.X, some Mark.X, none, none, none, some Mark.X]).toNat
        (some Mark.O)) = true :=
  claim_C5_takes_immediate_win 0 _ (by decide) (by decide) (by decide)
    ⟨(0, 1, 2), by decide, Or.inl ⟨by decide, by decide, by decide⟩⟩

/-- C1: from every reachable in-progress state where it is the bot's turn and
an empty cell exists, and for every resolution of the random draws, the move
returned by `botPlayer` is valid, never hands the player a completed line, and
leads to a position from which the player cannot force a win against the bot
(for any horizon `fuel`): the player's best achievable outcome is a draw. -/
theorem claim_C1_bot_never_loses (s : AppState) (hreach : Reachable s)
    (hplay : s.status = GameStatus.playing) (hturn : s.isPlayerTurn = false)
    (hempty : ∃ i, i < 9 ∧ cellAt s.board i = none)
    (r : Fin 4) (rands : Nat → Fin 4) (k fuel : Nat) :
    botPlayer r s.board ≠ -1 ∧
    hasWon (some Mark.X) (s.board.set (botPlayer r s.board).toNat (some Mark.O)) = false ∧
    (hasWon (some Mark.O) (s.board.set (botPlayer r s.board).toNat (some Mark.O)) = false →
      xBeatsBot rands k fuel
        (s.board.set (botPlayer r s.board).toNat (some Mark.O)) = false) := by
  obtain ⟨hlen, hprops⟩ := Inv_reachable hreach
  obtain ⟨hO, hX, -, hOt⟩ := hprops hplay
  obtain ⟨hparity, hvnn⟩ := hOt hturn
  have hpos : 0 < countEmpty s.board := by
    obtain ⟨i, hi9, hcty⟩ := hempty
    have hi : i ∈ availableMoves s.board := mem_availableMoves.mpr ⟨hi9, hcty⟩
    have hne : availableMoves s.board ≠ [] := fun hnil => by rw [hnil] at hi; cases hi
    have := List.length_pos.mpr hne
    have hlen9 : (availableMoves s.board).length = countEmpty s.board := rfl
    omega
  have hne9 : countEmpty s.board ≠ 9 := by omega
  obtain ⟨hmem, hv'⟩ := botPlayer_preserves_nonneg r s.board hlen hO hX hpos hne9 hvnn
  obtain ⟨hm9, hcty⟩ := mem_availableMoves.mp hmem
  have hne : availableMoves s.board ≠ [] := avail_ne_nil_of_countEmpty_pos hpos
  obtain ⟨-, hofn⟩ := @botPlayer_mem r s.board hne
  have hlen' : (s.board.set (botPlayer r s.board).toNat (some Mark.O)).length = 9 := by
    rw [length_set_board]; exact hlen
  have hX' : hasWon (some Mark.X)
      (s.board.set (botPlayer r s.board).toNat (some Mark.O)) = false := by
    rw [hasWon_set_other hlen hm9 hcty (by decide)]; exact hX
  refine ⟨?_, hX', ?_⟩
  · intro hneg
    have h0 : (0 : Int) ≤ -1 := by
      rw [← hneg, hofn]
      exact Int.ofNat_nonneg _
    norm_num at h0
  · intro hO'
    exact xBeatsBot_eq_false fuel rands k _ hlen' hO' hX' hv'

/-- Witness for C1: the state reached by the player clicking cell 0. -/
theorem claim_C1_bot_never_loses_witness :
    botPlayer 0 (afterMove Mark.X (initState.board.set 0 (some Mark.X)) false).board
      ≠ -1 ∧
    hasWon (some Mark.X)
      ((afterMove Mark.X (initState.board.set 0 (some Mark.X)) false).board.set
        (botPlayer 0 (afterMove Mark.X (initState.board.set 0 (some Mark.X)) false).board).toNat
        (some Mark.O)) = false ∧
    (hasWon (some Mark.O)
      ((afterMove Mark.X (initState.board.set 0 (some Mark.X)) false).board.set
        (botPlayer 0 (afterMove Mark.X (initState.board.set 0 (some Mark.X)) false).board).toNat
        (some Mark.O)) = false →
      xBeatsBot (fun _ => 0) 0 9
        ((afterMove Mark.X (initState.board.set 0 (some Mark.X)) false).board.set
          (botPlayer 0 (afterMove Mark.X (initState.board.set 0 (some Mark.X)) false).board).toNat
          (some Mark.O)) = false) :=
  claim_C1_bot_never_loses
    (afterMove Mark.X (initState.board.set 0 (some Mark.X)) false)
    (Reachable.step Reachable.init (Step.click initState 0 rfl rfl (by omega) (by decide)))
    (by decide) (by decide) ⟨1, by omega, by decide⟩ 0 (fun _ => 0) 0 9

end TTT
